import Mathlib

/-!
Verification of the jpeg-decoder crate against its natural-language
specification.

The Rust sources are shallowly embedded: machine integers are modelled as
`Nat`/`Int` with explicit reductions modulo `2^w` at the points where the
source relies on wrapping (release-build) semantics; Rust shift operators
mask the shift amount modulo the bit width, as release builds do; fallible
code returns `Option`/`Except`.
-/

namespace Jpeg

/-- Interpretation of a 32-bit word as a signed two's complement value,
modelling Rust's `u32 as i32` cast. -/
def toI32 (v : Nat) : Int :=
  if v < 2 ^ 31 then (v : Int) else (v : Int) - 2 ^ 32

/-- Wrapping of an integer into i32 range, modelling Rust's wrapping i32
arithmetic (release builds). -/
def wrapI32 (x : Int) : Int :=
  (x + 2 ^ 31) % 2 ^ 32 - 2 ^ 31

/-- Arithmetic shift right on `Int` (Rust `>>` on a signed integer):
floor division by a power of two. -/
def asr (x : Int) (n : Nat) : Int :=
  Int.fdiv x (2 ^ n)

/-! ## `Dimensions` (src/parser.rs) -/

/-- Embedding of `parser::Dimensions { width: u16, height: u16 }`. -/
structure Dimensions where
  width : Nat
  height : Nat
deriving DecidableEq, Repr

/-! ## C2: `choose_idct_size` (src/idct.rs, lines 25–35) -/

/-- Embedding of the inner helper of `choose_idct_size`:
`fn scaled(len: u16, scale: usize) -> u16 { ((len as u32 * scale as u32 - 1) / 8 + 1) as u16 }`.
The subtraction is u32 wrapping (release semantics) and the result is cast
back to u16, hence the two reductions. -/
def scaled (len scale : Nat) : Nat :=
  (((len * scale + (2 ^ 32 - 1)) % 2 ^ 32) / 8 + 1) % 2 ^ 16

/-- Embedding of `idct::choose_idct_size`: try the scales 1, 2, 4 in order
and return the first whose scaled size reaches the requested size on either
axis; fall back to 8. -/
def choose_idct_size (full_size requested_size : Dimensions) : Nat :=
  if scaled full_size.width 1 ≥ requested_size.width ∨
     scaled full_size.height 1 ≥ requested_size.height then 1
  else if scaled full_size.width 2 ≥ requested_size.width ∨
     scaled full_size.height 2 ≥ requested_size.height then 2
  else if scaled full_size.width 4 ≥ requested_size.width ∨
     scaled full_size.height 4 ≥ requested_size.height then 4
  else 8

/-- The claim's acceptance condition for a scale, with the division read as
a ceiling division as the spec sentence literally states:
`ceil((full_dim * scale - 1) / 8) + 1 ≥ requested_dim` on either axis. -/
def claimCondC2 (full_size requested_size : Dimensions) (scale : Nat) : Prop :=
  (full_size.width * scale - 1 + 7) / 8 + 1 ≥ requested_size.width ∨
  (full_size.height * scale - 1 + 7) / 8 + 1 ≥ requested_size.height

instance (full requested : Dimensions) (scale : Nat) :
    Decidable (claimCondC2 full requested scale) := by
  unfold claimCondC2; infer_instance

/-- The code's acceptance condition for a scale: the source uses integer
(floor) division, `(full_dim * scale - 1) / 8 + 1 ≥ requested_dim`,
on either axis. -/
def codeCondC2 (full_size requested_size : Dimensions) (scale : Nat) : Prop :=
  (full_size.width * scale - 1) / 8 + 1 ≥ requested_size.width ∨
  (full_size.height * scale - 1) / 8 + 1 ≥ requested_size.height

instance (full requested : Dimensions) (scale : Nat) :
    Decidable (codeCondC2 full requested scale) := by
  unfold codeCondC2; infer_instance

/-! ## C3: `Decoder::select_worker` (src/decoder.rs, lines 245–260) -/

/-- Embedding of `worker::PreferWorkerKind`. -/
inductive PreferWorkerKind where
  | Immediate
  | Multithreaded
deriving DecidableEq, Repr

/-- Embedding of `Decoder::select_worker`.  The source reads
`let width: u64 = frame.output_size.width.into();`
`let height: u64 = frame.output_size.width.into();`
— both locals are assigned the frame's output *width* — and compares
`width * height` against `PARALLELISM_THRESHOLD = 128 * 128`.  Only the
frame's output size is consulted, so the embedding takes it directly. -/
def select_worker (output_size : Dimensions)
    (worker_preference : PreferWorkerKind) : PreferWorkerKind :=
  match worker_preference with
  | .Immediate => .Immediate
  | .Multithreaded =>
    let width := output_size.width
    let height := output_size.width
    if width * height > 128 * 128 then .Multithreaded else .Immediate

/-! ## C10: `Marker::from_u8` (src/marker.rs, lines 99–170) and
`Decoder::read_marker` (src/decoder.rs, lines 766–791) -/

/-- Embedding of `marker::Marker` (Table B.1). -/
inductive Marker where
  | SOF0 | SOF1 | SOF2 | SOF3 | SOF5 | SOF6 | SOF7
  | JPG | SOF9 | SOF10 | SOF11 | SOF13 | SOF14 | SOF15
  | DHT | DAC
  | RST0 | RST1 | RST2 | RST3 | RST4 | RST5 | RST6 | RST7
  | SOI | EOI | SOS | DQT | DNL | DRI | DHP | EXP
  | APP0 | APP1 | APP2 | APP3 | APP4 | APP5 | APP6 | APP7
  | APP8 | APP9 | APP10 | APP11 | APP12 | APP13 | APP14 | APP15
  | JPG0 | JPG1 | JPG2 | JPG3 | JPG4 | JPG5 | JPG6 | JPG7
  | JPG8 | JPG9 | JPG10 | JPG11 | JPG12 | JPG13
  | COM | TEM | RES
deriving DecidableEq, Repr

/-- Embedding of `Marker::from_u8`.  The source's range pattern
`0x02 ... 0xBF => Some(Marker::RES)` becomes a comparison; `0x00` (byte
stuffing) and `0xFF` (fill byte) map to `None`. -/
def Marker.fromU8 (n : Fin 256) : Option Marker :=
  if n.val = 0x00 then none
  else if n.val = 0x01 then some .TEM
  else if n.val ≤ 0xBF then some .RES
  else if n.val = 0xC0 then some .SOF0
  else if n.val = 0xC1 then some .SOF1
  else if n.val = 0xC2 then some .SOF2
  else if n.val = 0xC3 then some .SOF3
  else if n.val = 0xC4 then some .DHT
  else if n.val = 0xC5 then some .SOF5
  else if n.val = 0xC6 then some .SOF6
  else if n.val = 0xC7 then some .SOF7
  else if n.val = 0xC8 then some .JPG
  else if n.val = 0xC9 then some .SOF9
  else if n.val = 0xCA then some .SOF10
  else if n.val = 0xCB then some .SOF11
  else if n.val = 0xCC then some .DAC
  else if n.val = 0xCD then some .SOF13
  else if n.val = 0xCE then some .SOF14
  else if n.val = 0xCF then some .SOF15
  else if n.val = 0xD0 then some .RST0
  else if n.val = 0xD1 then some .RST1
  else if n.val = 0xD2 then some .RST2
  else if n.val = 0xD3 then some .RST3
  else if n.val = 0xD4 then some .RST4
  else if n.val = 0xD5 then some .RST5
  else if n.val = 0xD6 then some .RST6
  else if n.val = 0xD7 then some .RST7
  else if n.val = 0xD8 then some .SOI
  else if n.val = 0xD9 then some .EOI
  else if n.val = 0xDA then some .SOS
  else if n.val = 0xDB then some .DQT
  else if n.val = 0xDC then some .DNL
  else if n.val = 0xDD then some .DRI
  else if n.val = 0xDE then some .DHP
  else if n.val = 0xDF then some .EXP
  else if n.val = 0xE0 then some .APP0
  else if n.val = 0xE1 then some .APP1
  else if n.val = 0xE2 then some .APP2
  else if n.val = 0xE3 then some .APP3
  else if n.val = 0xE4 then some .APP4
  else if n.val = 0xE5 then some .APP5
  else if n.val = 0xE6 then some .APP6
  else if n.val = 0xE7 then some .APP7
  else if n.val = 0xE8 then some .APP8
  else if n.val = 0xE9 then some .APP9
  else if n.val = 0xEA then some .APP10
  else if n.val = 0xEB then some .APP11
  else if n.val = 0xEC then some .APP12
  else if n.val = 0xED then some .APP13
  else if n.val = 0xEE then some .APP14
  else if n.val = 0xEF then some .APP15
  else if n.val = 0xF0 then some .JPG0
  else if n.val = 0xF1 then some .JPG1
  else if n.val = 0xF2 then some .JPG2
  else if n.val = 0xF3 then some .JPG3
  else if n.val = 0xF4 then some .JPG4
  else if n.val = 0xF5 then some .JPG5
  else if n.val = 0xF6 then some .JPG6
  else if n.val = 0xF7 then some .JPG7
  else if n.val = 0xF8 then some .JPG8
  else if n.val = 0xF9 then some .JPG9
  else if n.val = 0xFA then some .JPG10
  else if n.val = 0xFB then some .JPG11
  else if n.val = 0xFC then some .JPG12
  else if n.val = 0xFD then some .JPG13
  else if n.val = 0xFE then some .COM
  else none

/-- Outcomes of `Decoder::read_marker`: a marker, end of stream (reader
error), or — modelling the `.unwrap()` — a panic. -/
inductive ReadMarkerOutcome where
  | endOfStream
  | panicked
deriving DecidableEq, Repr

mutual

/-- Embedding of the outer loop of `Decoder::read_marker`: skip bytes until
a `0xFF` is read (libjpeg-compatible leniency), then look at the byte that
follows. -/
def read_marker : List (Fin 256) → Except ReadMarkerOutcome Marker
  | [] => .error .endOfStream
  | b :: rest =>
    if b.val = 0xFF then read_marker_after_ff rest else read_marker rest

/-- Embedding of the rest of one iteration of `Decoder::read_marker`: skip
fill `0xFF` bytes, then return `Marker::from_u8(byte).unwrap()` when the
byte is neither `0x00` nor `0xFF`, else restart the outer loop. -/
def read_marker_after_ff : List (Fin 256) → Except ReadMarkerOutcome Marker
  | [] => .error .endOfStream
  | b :: rest =>
    if b.val = 0xFF then read_marker_after_ff rest
    else if b.val = 0x00 then read_marker rest
    else
      match Marker.fromU8 b with
      | some m => .ok m
      | none => .error .panicked

end

/-! ## C6: `HuffmanDecoder::receive`, `receive_extend` and `extend`
(src/huffman.rs, lines 120–130 and 209–231) -/

/-- Rust `u32 <<` with the shift amount masked modulo 32 (release
semantics) and the result reduced to 32 bits. -/
def shlMasked32 (x n : Nat) : Nat :=
  (x <<< (n % 32)) % 2 ^ 32

/-- Rust `u32 >>` with the shift amount masked modulo 32 (release
semantics). -/
def shrMasked32 (x n : Nat) : Nat :=
  x >>> (n % 32)

/-- Embedding of `huffman::extend` (Section F.2.2.1, Figure F.12):
`vt = 1 << (count as u32 - 1)`; if `value < vt` then
`value + (-1 << count) + 1` else `value`.  The `count - 1` subtraction is
u32 wrapping and both shifts are i32 shifts with masked amounts. -/
def extend (value : Int) (count : Nat) : Int :=
  let vt := toI32 (shlMasked32 1 ((count + (2 ^ 32 - 1)) % 2 ^ 32))
  if value < vt then
    wrapI32 (value + toI32 (shlMasked32 (2 ^ 32 - 1) count) + 1)
  else
    value

/-- Embedding of `HuffmanDecoder::receive` on a bit-buffer state `(bits,
num_bits)` that already holds enough bits, so the `read_bits` refill is not
taken (claim C6's hypothesis); with fewer buffered bits the embedded
function reports the format error.  Returns the received value and the
state after `consume_bits(count)` (Section F.2.2.4, Figure F.17). -/
def receive (bits numBits count : Nat) : Option (Nat × Nat × Nat) :=
  if count ≤ numBits then
    let mask := shlMasked32 0xffffffff (32 - count)
    let value := shrMasked32 (bits &&& mask) (32 - count)
    some (value, (bits <<< count) % 2 ^ 32, numBits - count)
  else none

/-- Embedding of `HuffmanDecoder::receive_extend`:
`extend(receive(count) as i32, count)`. -/
def receive_extend (bits numBits count : Nat) : Option (Int × Nat × Nat) :=
  match receive bits numBits count with
  | some (v, b, n) => some (extend (toI32 v) count, b, n)
  | none => none

/-! ## C9: lossless difference decoding and sample reconstruction
(src/decoder/lossless.rs, lines 86–104 and 139–177) -/

/-- Embedding of the per-pixel difference decoding in
`Decoder::decode_scan_lossless`: the Huffman-decoded magnitude category `t`
(a `u8`) selects the difference:
`match value { 0 => 0, 1..=15 => receive_extend(value), 16 => 32768,
_ => Err(Format(..)) }`. -/
def lossless_diff (t : Nat) (bits numBits : Nat) : Option (Int × Nat × Nat) :=
  if t = 0 then some (0, bits, numBits)
  else if 1 ≤ t ∧ t ≤ 15 then receive_extend bits numBits t
  else if t = 16 then some (32768, bits, numBits)
  else none

/-- Embedding of the sample reconstruction in `decode_scan_lossless`:
`let result = ((prediction + diff) & 0xFFFF) as u16;`
`result << point_transform` stored as `u16`.  On i32, `& 0xFFFF` is the
nonnegative residue modulo `2^16`; the `u16` shift masks its amount modulo
16 and keeps the low 16 bits. -/
def reconstruct_sample (prediction diff : Int) (point_transform : Nat) : Nat :=
  ((((prediction + diff) % 65536).toNat <<< (point_transform % 16)) % 2 ^ 16)

/-! ## C7: `refine_non_zeroes` (src/decoder.rs, lines 1260–1298) -/

/-- Embedding of the `UNZIGZAG` table (src/decoder.rs, lines 27–36). -/
def UNZIGZAG : List Nat :=
  [0, 1, 8, 16, 9, 2, 3, 10,
   17, 24, 32, 25, 18, 11, 4, 5,
   12, 19, 26, 33, 40, 48, 41, 34,
   27, 20, 13, 6, 7, 14, 21, 28,
   35, 42, 49, 56, 57, 50, 43, 36,
   29, 22, 15, 23, 30, 37, 44, 51,
   58, 59, 52, 45, 38, 31, 39, 46,
   53, 60, 61, 54, 47, 55, 62, 63]

/-- Bitwise AND of two i16 values on their two's complement bit patterns,
modelling `*coefficient & bit`. -/
def landI16 (a b : Int) : Nat :=
  (a % 65536).toNat &&& (b % 65536).toNat

/-- Embedding of `refine_non_zeroes`.  The bit input `get_bits(reader, 1)`
is modelled as an infinite bit stream `stream` with a cursor `pos`
(end-of-data handling of the bit reader is orthogonal to this claim).
The result is the returned zigzag index together with the updated
coefficients and cursor; `none` models the `Format("Coefficient
overflow")` error from the checked i16 arithmetic. -/
def refine_non_zeroes (stream : Nat → Bool) (coeffs : List Int)
    (pos start stop zrl : Nat) (bit : Int) :
    Option (Nat × List Int × Nat) :=
  if h : start < stop then
    let index := UNZIGZAG.getD start 0
    let c := coeffs.getD index 0
    if c = 0 then
      if zrl = 0 then some (start, coeffs, pos)
      else refine_non_zeroes stream coeffs pos (start + 1) stop (zrl - 1) bit
    else
      if stream pos = true ∧ landI16 c bit = 0 then
        if 0 < c then
          if c + bit ≤ 32767 then
            refine_non_zeroes stream (coeffs.set index (c + bit)) (pos + 1)
              (start + 1) stop zrl bit
          else none
        else
          if -32768 ≤ c - bit then
            refine_non_zeroes stream (coeffs.set index (c - bit)) (pos + 1)
              (start + 1) stop zrl bit
          else none
      else
        refine_non_zeroes stream coeffs (pos + 1) (start + 1) stop zrl bit
  else
    some (stop - 1, coeffs, pos)
termination_by stop - start

/-- The walk claim C7 describes, written over an explicit list of zigzag
positions: at a zero coefficient the zero-run length is decremented and the
position is returned once the run is exhausted; at a non-zero coefficient
one input bit is consumed and, when it is 1 and the refinement bit is not
yet set, `+bit` is added to a positive coefficient and `-bit` to a negative
one with checked i16 arithmetic (overflow is a format error, `none`); when
the positions are exhausted the last index of the range is returned. -/
def refineWalkSpec (stream : Nat → Bool) (coeffs : List Int) (pos : Nat)
    (positions : List Nat) (lastIdx zrl : Nat) (bit : Int) :
    Option (Nat × List Int × Nat) :=
  match positions with
  | [] => some (lastIdx, coeffs, pos)
  | i :: rest =>
    let index := UNZIGZAG.getD i 0
    let c := coeffs.getD index 0
    if c = 0 then
      if zrl = 0 then some (i, coeffs, pos)
      else refineWalkSpec stream coeffs pos rest lastIdx (zrl - 1) bit
    else
      if stream pos = true ∧ landI16 c bit = 0 then
        if 0 < c then
          if c + bit ≤ 32767 then
            refineWalkSpec stream (coeffs.set index (c + bit)) (pos + 1) rest
              lastIdx zrl bit
          else none
        else
          if -32768 ≤ c - bit then
            refineWalkSpec stream (coeffs.set index (c - bit)) (pos + 1) rest
              lastIdx zrl bit
          else none
      else
        refineWalkSpec stream coeffs (pos + 1) rest lastIdx zrl bit

/-! ## C5: `dequantize_and_idct_block` (src/idct.rs, lines 56–64 and the
scale-specific kernels).  Lane vectors (`i32x8`, `i32x4`) become `List Int`
with wrapping i32 lane arithmetic; `u8` lanes become `List Nat`. -/

/-- Lanewise wrapping addition of two i32 vectors. -/
def vAdd (a b : List Int) : List Int :=
  List.zipWith (fun x y => wrapI32 (x + y)) a b

/-- Lanewise wrapping subtraction of two i32 vectors. -/
def vSub (a b : List Int) : List Int :=
  List.zipWith (fun x y => wrapI32 (x - y)) a b

/-- Lanewise wrapping multiplication of two i32 vectors. -/
def vMul (a b : List Int) : List Int :=
  List.zipWith (fun x y => wrapI32 (x * y)) a b

/-- Lanewise wrapping multiplication by a splatted constant. -/
def vMulC (a : List Int) (c : Int) : List Int :=
  a.map (fun x => wrapI32 (x * c))

/-- Lanewise wrapping addition of a splatted constant. -/
def vAddC (a : List Int) (c : Int) : List Int :=
  a.map (fun x => wrapI32 (x + c))

/-- Lanewise wrapping left shift (`<<`) of an i32 vector. -/
def vShl (a : List Int) (n : Nat) : List Int :=
  a.map (fun x => wrapI32 (x * 2 ^ n))

/-- Lanewise arithmetic right shift (`>>`) of an i32 vector. -/
def vSar (a : List Int) (n : Nat) : List Int :=
  a.map (fun x => asr x n)

/-- Embedding of `stbi_f2f(x) = (x * 4096.0 + 0.5) as i32`, precomputed
under f32 arithmetic for each constant the source uses. -/
def stbi_f2f_0_5411961 : Int := 2217

def stbi_f2f_m1_847759065 : Int := -7567

def stbi_f2f_0_765366865 : Int := 3135

def stbi_f2f_1_175875602 : Int := 4816

def stbi_f2f_0_298631336 : Int := 1223

def stbi_f2f_2_053119869 : Int := 8410

def stbi_f2f_3_072711026 : Int := 12586

def stbi_f2f_1_501321110 : Int := 6149

def stbi_f2f_m0_899976223 : Int := -3685

def stbi_f2f_m2_562915447 : Int := -10497

def stbi_f2f_m1_961570560 : Int := -8034

def stbi_f2f_m0_390180644 : Int := -1597

/-- Embedding of `stbi_fsh_simd(x) = x << 12`. -/
def stbi_fsh_simd (x : List Int) : List Int :=
  vShl x 12

/-- Lane slice of a flat list: `&l[off .. off + n]`. -/
def rowSlice (l : List Int) (off n : Nat) : List Int :=
  (l.drop off).take n

/-- Lanewise clamp to `0..=255` and cast to u8
(`stbi_clamp_simd`). -/
def vClamp (a : List Int) : List Nat :=
  a.map (fun x => (min (max x 0) 255).toNat)

/-- Writing a row of lanes into the output buffer at a given offset
(`write_to_slice_unaligned`). -/
def writeChunk (out : List Nat) (off : Nat) (row : List Nat) : List Nat :=
  out.take off ++ row ++ out.drop (off + row.length)

/-- Embedding of `idct_1d_x`: the even part of the stb 1-D IDCT, with the
rounding/recentering correction added to every lane. -/
def idct_1d_x (s : List (List Int)) (correction : Int) : List (List Int) :=
  let p2 := s.getD 2 []
  let p3 := s.getD 6 []
  let p1 := vMulC (vAdd p2 p3) stbi_f2f_0_5411961
  let t2 := vAdd p1 (vMulC p3 stbi_f2f_m1_847759065)
  let t3 := vAdd p1 (vMulC p2 stbi_f2f_0_765366865)
  let q2 := s.getD 0 []
  let q3 := s.getD 4 []
  let t0 := stbi_fsh_simd (vAdd q2 q3)
  let t1 := stbi_fsh_simd (vSub q2 q3)
  [vAddC (vAdd t0 t3) correction,
   vAddC (vAdd t1 t2) correction,
   vAddC (vSub t1 t2) correction,
   vAddC (vSub t0 t3) correction]

/-- Embedding of `idct_1d_t`: the odd part of the stb 1-D IDCT. -/
def idct_1d_t (s : List (List Int)) : List (List Int) :=
  let t0 := s.getD 7 []
  let t1 := s.getD 5 []
  let t2 := s.getD 3 []
  let t3 := s.getD 1 []
  let p3 := vAdd t0 t2
  let p4 := vAdd t1 t3
  let p1 := vAdd t0 t3
  let p2 := vAdd t1 t2
  let p5 := vMulC (vAdd p3 p4) stbi_f2f_1_175875602
  let u0 := vMulC t0 stbi_f2f_0_298631336
  let u1 := vMulC t1 stbi_f2f_2_053119869
  let u2 := vMulC t2 stbi_f2f_3_072711026
  let u3 := vMulC t3 stbi_f2f_1_501321110
  let q1 := vAdd p5 (vMulC p1 stbi_f2f_m0_899976223)
  let q2 := vAdd p5 (vMulC p2 stbi_f2f_m2_562915447)
  let q3 := vMulC p3 stbi_f2f_m1_961570560
  let q4 := vMulC p4 stbi_f2f_m0_390180644
  [vAdd (vAdd u0 q1) q3, vAdd (vAdd u1 q2) q4,
   vAdd (vAdd u2 q2) q3, vAdd (vAdd u3 q1) q4]

/-- Dequantization step of the 8×8 kernel: `s[i] = coeff_row[i] *
quant_row[i]` for the 8 rows of 8 lanes. -/
def dequantize8x8 (coefficients quantization_table : List Int) :
    List (List Int) :=
  (List.range 8).map (fun i =>
    vMul (rowSlice coefficients (8 * i) 8)
      (rowSlice quantization_table (8 * i) 8))

/-- The two butterfly passes, clamp and output writes of
`dequantize_and_idct_block_8x8` applied to the dequantized rows. -/
def idct8x8core (s : List (List Int)) (output_linestride : Nat)
    (output : List Nat) : List Nat :=
  let x := idct_1d_x s 512
  let t := idct_1d_t s
  let s1 : List (List Int) :=
    [vSar (vAdd (x.getD 0 []) (t.getD 3 [])) 10,
     vSar (vAdd (x.getD 1 []) (t.getD 2 [])) 10,
     vSar (vAdd (x.getD 2 []) (t.getD 1 [])) 10,
     vSar (vAdd (x.getD 3 []) (t.getD 0 [])) 10,
     vSar (vSub (x.getD 3 []) (t.getD 0 [])) 10,
     vSar (vSub (x.getD 2 []) (t.getD 1 [])) 10,
     vSar (vSub (x.getD 1 []) (t.getD 2 [])) 10,
     vSar (vSub (x.getD 0 []) (t.getD 3 [])) 10]
  let s2 := s1.transpose
  let x2 := idct_1d_x s2 (65536 + 128 * 2 ^ 17)
  let t2 := idct_1d_t s2
  let results : List (List Nat) :=
    [vClamp (vSar (vAdd (x2.getD 0 []) (t2.getD 3 [])) 17),
     vClamp (vSar (vAdd (x2.getD 1 []) (t2.getD 2 [])) 17),
     vClamp (vSar (vAdd (x2.getD 2 []) (t2.getD 1 [])) 17),
     vClamp (vSar (vAdd (x2.getD 3 []) (t2.getD 0 [])) 17),
     vClamp (vSar (vSub (x2.getD 3 []) (t2.getD 0 [])) 17),
     vClamp (vSar (vSub (x2.getD 2 []) (t2.getD 1 [])) 17),
     vClamp (vSar (vSub (x2.getD 1 []) (t2.getD 2 [])) 17),
     vClamp (vSar (vSub (x2.getD 0 []) (t2.getD 3 [])) 17)]
  let results := results.transpose
  (List.range 8).foldl
    (fun out i => writeChunk out (i * output_linestride) (results.getD i []))
    output

/-- Embedding of `dequantize_and_idct_block_8x8` (the portable stb
routine). -/
def dequantize_and_idct_block_8x8 (coefficients quantization_table : List Int)
    (output_linestride : Nat) (output : List Nat) : List Nat :=
  idct8x8core (dequantize8x8 coefficients quantization_table)
    output_linestride output

/-- Embedding of `dequantize_and_idct_block_4x4` (Dugad/Ahuja scaled
IDCT). -/
def dequantize_and_idct_block_4x4 (coefficients quantization_table : List Int)
    (output_linestride : Nat) (output : List Nat) : List Nat :=
  let s : List (List Int) :=
    (List.range 4).map (fun i =>
      vMul (rowSlice coefficients (8 * i) 4)
        (rowSlice quantization_table (8 * i) 4))
  let x0 := vShl (vAdd (s.getD 0 []) (s.getD 2 [])) 2
  let x2 := vShl (vSub (s.getD 0 []) (s.getD 2 [])) 2
  let p1 := vMulC (vAdd (s.getD 1 []) (s.getD 3 [])) stbi_f2f_0_5411961
  let t0 := vSar (vAddC (vAdd p1 (vMulC (s.getD 3 []) stbi_f2f_m1_847759065))
    512) 10
  let t2 := vSar (vAddC (vAdd p1 (vMulC (s.getD 1 []) stbi_f2f_0_765366865))
    512) 10
  let s1 : List (List Int) :=
    [vAdd x0 t2, vAdd x2 t0, vSub x2 t0, vSub x0 t2]
  let s2 := s1.transpose
  let y0 := vShl (vAdd (s2.getD 0 []) (s2.getD 2 [])) 12
  let y2 := vShl (vSub (s2.getD 0 []) (s2.getD 2 [])) 12
  let q1 := vMulC (vAdd (s2.getD 1 []) (s2.getD 3 [])) stbi_f2f_0_5411961
  let u0 := vAdd q1 (vMulC (s2.getD 3 []) stbi_f2f_m1_847759065)
  let u2 := vAdd q1 (vMulC (s2.getD 1 []) stbi_f2f_0_765366865)
  let y0 := vAddC y0 (2 ^ 16 + 128 * 2 ^ 17)
  let y2 := vAddC y2 (2 ^ 16 + 128 * 2 ^ 17)
  let results : List (List Nat) :=
    [vClamp (vSar (vAdd y0 u2) 17),
     vClamp (vSar (vAdd y2 u0) 17),
     vClamp (vSar (vSub y2 u0) 17),
     vClamp (vSar (vSub y0 u2) 17)]
  let results := results.transpose
  (List.range 4).foldl
    (fun out i => writeChunk out (i * output_linestride) (results.getD i []))
    output

/-- Embedding of `dequantize_and_idct_block_2x2`. -/
def dequantize_and_idct_block_2x2 (coefficients quantization_table : List Int)
    (output_linestride : Nat) (output : List Nat) : List Nat :=
  let s00 := wrapI32 (coefficients.getD 0 0 * quantization_table.getD 0 0)
  let s10 := wrapI32 (coefficients.getD 8 0 * quantization_table.getD 8 0)
  let x0 := wrapI32 (s00 + s10)
  let x2 := wrapI32 (s00 - s10)
  let s01 := wrapI32 (coefficients.getD 1 0 * quantization_table.getD 1 0)
  let s11 := wrapI32 (coefficients.getD 9 0 * quantization_table.getD 9 0)
  let x1 := wrapI32 (s01 + s11)
  let x3 := wrapI32 (s01 - s11)
  let x0 := wrapI32 (x0 + (2 ^ 2 + 128 * 2 ^ 3))
  let x2 := wrapI32 (x2 + (2 ^ 2 + 128 * 2 ^ 3))
  let clamp := fun v : Int => (min (max v 0) 255).toNat
  (((output.set 0 (clamp (asr (wrapI32 (x0 + x1)) 3))).set
      1 (clamp (asr (wrapI32 (x0 - x1)) 3))).set
    output_linestride (clamp (asr (wrapI32 (x2 + x3)) 3))).set
    (output_linestride + 1) (clamp (asr (wrapI32 (x2 - x3)) 3))

/-- Embedding of `dequantize_and_idct_block_1x1`; `Wrapping<i32>` division
truncates toward zero. -/
def dequantize_and_idct_block_1x1 (coefficients quantization_table : List Int)
    (output : List Nat) : List Nat :=
  let s0 := Int.tdiv
    (wrapI32 (wrapI32 (coefficients.getD 0 0 * quantization_table.getD 0 0) +
      128 * 8)) 8
  output.set 0 ((min (max s0 0) 255).toNat)

/-- Embedding of the `dequantize_and_idct_block` dispatcher; an
unsupported scale panics in the source (`none` here). -/
def dequantize_and_idct_block (scale : Nat)
    (coefficients quantization_table : List Int)
    (output_linestride : Nat) (output : List Nat) : Option (List Nat) :=
  match scale with
  | 8 => some (dequantize_and_idct_block_8x8 coefficients quantization_table
      output_linestride output)
  | 4 => some (dequantize_and_idct_block_4x4 coefficients quantization_table
      output_linestride output)
  | 2 => some (dequantize_and_idct_block_2x2 coefficients quantization_table
      output_linestride output)
  | 1 => some (dequantize_and_idct_block_1x1 coefficients quantization_table
      output)
  | _ => none

/-! ## C4: canonical Huffman table construction and decoding
(src/huffman.rs, lines 24–85, 88–118 and 159–186) -/

/-- Repeating each code length `len, len+1, …` according to the count list
(Figure C.1); `huffsizeOf bits = sizesFrom bits 1` is the source's
`huffsize`. -/
def sizesFrom : List Nat → Nat → List Nat
  | [], _ => []
  | c :: rest, len => List.replicate c len ++ sizesFrom rest (len + 1)

/-- Embedding of the `huffsize` list built in `derive_huffman_codes` from
the 16 length counts. -/
def huffsizeOf (bits : List Nat) : List Nat :=
  sizesFrom bits 1

/-- Embedding of the code-assignment loop of `derive_huffman_codes`
(Figure C.2).  `code` is a `u16`; the `while size != v { code <<= 1 }`
loop is the single shift by `v - size` because `huffsize` is
non-decreasing, and each mutation is reduced modulo `2^16`.  The guard
`code as u32 >= 1 << size` is the format-error check. -/
def buildCodes : List Nat → Nat → Nat → Option (List Nat)
  | [], _, _ => some []
  | v :: rest, code, size =>
    let code := (code <<< (v - size)) % 2 ^ 16
    if code < 2 ^ v then
      match buildCodes rest ((code + 1) % 2 ^ 16) v with
      | some cs => some (code :: cs)
      | none => none
    else none

/-- Embedding of `derive_huffman_codes`: returns `(huffcode, huffsize)` or
the `"bad huffman code length"` format error. -/
def derive_huffman_codes (bits : List Nat) : Option (List Nat × List Nat) :=
  let huffsize := huffsizeOf bits
  match buildCodes huffsize 0 (huffsize.headD 0) with
  | some codes => some (codes, huffsize)
  | none => none

/-- Embedding of the `value_offset` / `maxcode` loop of
`HuffmanTable::new` (Figure F.15), with the running first-index `j`:
per length slot the pair `(VALPTR - MINCODE, MAXCODE)`, or `(0, -1)` for an
empty slot. -/
def offsetsMaxGo : List Nat → List Nat → Nat → List (Int × Int)
  | [], _, _ => []
  | c :: rest, huffcode, j =>
    if c ≠ 0 then
      ((j : Int) - (huffcode.getD j 0 : Int),
        (huffcode.getD (j + c - 1) 0 : Int)) :: offsetsMaxGo rest huffcode (j + c)
    else
      (0, -1) :: offsetsMaxGo rest huffcode j

/-- In-place write of the constant `v` to the index range `[start, start +
cnt)` of a list (out-of-range positions are simply absent, the valid
tables never reach them). -/
def writeRangeGo (l : List (Nat × Nat)) (k start cnt : Nat) (v : Nat × Nat) :
    List (Nat × Nat) :=
  match l with
  | [] => []
  | x :: rest =>
    (if start ≤ k ∧ k < start + cnt then v else x) ::
      writeRangeGo rest (k + 1) start cnt v

/-- Range write starting from index 0. -/
def writeRange (l : List (Nat × Nat)) (start cnt : Nat) (v : Nat × Nat) :
    List (Nat × Nat) :=
  writeRangeGo l 0 start cnt v

/-- One iteration of the `lut` fill loop of `HuffmanTable::new`: for a
value whose code is at most `LUT_BITS = 8` long, fill the `2^(8-size)`
slots below the left-justified code (a u16 shift) with `(value, size)`. -/
def lutStep (huffcode huffsize : List Nat) (lut : List (Nat × Nat))
    (p : Nat × Nat) : List (Nat × Nat) :=
  let i := p.1
  let value := p.2
  let size := huffsize.getD i 0
  if size ≤ 8 then
    writeRange lut ((huffcode.getD i 0 <<< (8 - size)) % 2 ^ 16)
      (2 ^ (8 - size)) (value, size)
  else lut

/-- Embedding of the `lut` construction of `HuffmanTable::new`: the fill
loop over the enumerated values. -/
def buildLut (values huffcode huffsize : List Nat) : List (Nat × Nat) :=
  values.enum.foldl (lutStep huffcode huffsize) (List.replicate 256 (0, 0))

/-- Embedding of the fast-AC table construction of `HuffmanTable::new`:
for every LUT slot whose decoded byte carries a short enough
(run, magnitude) pair with an i8-ranged extended value, pack
`(value << 8) + (run << 4) + (size + magnitude)`. -/
def buildFastAc (lut : List (Nat × Nat)) : List Int :=
  (List.range 256).map (fun i =>
    let value := (lut.getD i (0, 0)).1
    let size := (lut.getD i (0, 0)).2
    if value < 255 then
      let run := (value >>> 4) &&& 0x0f
      let magnitude_bits := value &&& 0x0f
      if 0 < magnitude_bits ∧ size + magnitude_bits ≤ 8 then
        let unextended := ((i <<< size) &&& ((2 ^ 8) - 1)) >>>
          (8 - magnitude_bits)
        let ac_value := extend (unextended : Int) magnitude_bits
        if -128 ≤ ac_value ∧ ac_value ≤ 127 then
          ac_value * 2 ^ 8 + (run : Int) * 2 ^ 4 +
            ((size : Int) + (magnitude_bits : Int))
        else 0
      else 0
    else 0)

/-- Embedding of `huffman::HuffmanTableClass`. -/
inductive HuffmanTableClass where
  | DC
  | AC
deriving DecidableEq, Repr

/-- Embedding of `huffman::HuffmanTable`. -/
structure HuffmanTable where
  values : List Nat
  value_offset : List Int
  maxcode : List Int
  lut : List (Nat × Nat)
  fast_ac : Option (List Int)
deriving DecidableEq, Repr

/-- Embedding of `HuffmanTable::new`; the only failure is the
format error of `derive_huffman_codes`. -/
def HuffmanTable.new (bits values : List Nat) (cls : HuffmanTableClass) :
    Option HuffmanTable :=
  match derive_huffman_codes bits with
  | none => none
  | some (huffcode, huffsize) =>
    let pairs := offsetsMaxGo bits huffcode 0
    let lut := buildLut values huffcode huffsize
    some
      { values := values
        value_offset := pairs.map Prod.fst
        maxcode := pairs.map Prod.snd
        lut := lut
        fast_ac :=
          match cls with
          | .AC => some (buildFastAc lut)
          | .DC => none }

/-- Extraction of the bit at position `i` of the 32-bit buffer, modelling
`next_bit`. -/
def bitAt (w i : Nat) : Nat :=
  (w >>> i) &&& 1

/-- Embedding of the slow path of `HuffmanDecoder::decode` (Figure F.16):
extend the code one bit at a time for up to 16 bits, comparing against
`maxcode`; failure to match is the format error, and an out-of-range
`values[code + value_offset]` access (a panic in the source) is also
`none`. -/
def decodeSlowGo (t : HuffmanTable) (w i code : Nat) : Option Nat :=
  if h : i < 16 then
    let code := code ||| bitAt w (31 - i)
    if (code : Int) ≤ t.maxcode.getD i (-1) then
      let idx := (code : Int) + t.value_offset.getD i 0
      if 0 ≤ idx ∧ idx.toNat < t.values.length then
        some (t.values.getD idx.toNat 0)
      else none
    else decodeSlowGo t w (i + 1) (code <<< 1)
  else none
termination_by 16 - i

/-- Embedding of `HuffmanDecoder::decode` on a bit buffer `w` that already
holds at least 16 valid bits (so the refill at entry is skipped): consult
the 8-bit LUT, else fall back to the bitwise loop. -/
def decodeHuff (t : HuffmanTable) (w : Nat) : Option Nat :=
  let index := (w >>> (32 - 8)) &&& ((2 ^ 8) - 1)
  let value := (t.lut.getD index (0, 0)).1
  let size := (t.lut.getD index (0, 0)).2
  if 0 < size then some value
  else decodeSlowGo t w 0 0

/-- The Kraft mass (in units of `2^-16`) of a list of code sizes. -/
def codeMass (sizes : List Nat) : Nat :=
  (sizes.map (fun s => 2 ^ (16 - s))).sum

/-- The claim's hypothesis that the histogram admits a valid canonical
assignment — no code of length `l` exceeding `2^l - 1` — is exactly the
Kraft inequality for the multiset of code sizes. -/
def kraftOk (bits : List Nat) : Prop :=
  codeMass (huffsizeOf bits) ≤ 2 ^ 16

instance (bits : List Nat) : Decidable (kraftOk bits) := by
  unfold kraftOk; infer_instance

/-! ### LUT slot coverage -/

/-- The first LUT slot a symbol fills (left-justified code, u16 shift). -/
def lutStart (huffcode huffsize : List Nat) (i : Nat) : Nat :=
  (huffcode.getD i 0 <<< (8 - huffsize.getD i 0)) % 2 ^ 16

/-- Symbol `i` covers LUT slot `k` when its code is short enough for the
LUT and `k` lies in its `2^(8-size)`-slot range. -/
def coversIdx (huffcode huffsize : List Nat) (i k : Nat) : Prop :=
  huffsize.getD i 0 ≤ 8 ∧ lutStart huffcode huffsize i ≤ k ∧
    k < lutStart huffcode huffsize i + 2 ^ (8 - huffsize.getD i 0)

instance (huffcode huffsize : List Nat) (i k : Nat) :
    Decidable (coversIdx huffcode huffsize i k) := by
  unfold coversIdx; infer_instance

/-! ## C8: `parse_dht` and the DHT table merge
(src/parser.rs lines 92–103 and 411–464; src/decoder.rs lines 501–518) -/

/-- Byte input is the list of bytes still to be read; `read_u8` fails at
end of stream (the source's IO error). -/
def readU8 : List Nat → Option (Nat × List Nat)
  | [] => none
  | b :: rest => some (b, rest)

/-- Embedding of `read_exact` into an `n`-byte buffer. -/
def readN (n : Nat) (bytes : List Nat) : Option (List Nat × List Nat) :=
  if n ≤ bytes.length then some (bytes.take n, bytes.drop n) else none

/-- Embedding of `read_length`: a big-endian `u16` that includes its own
two bytes; a value below 2 is a format error. -/
def read_length (bytes : List Nat) : Option (Nat × List Nat) :=
  match readU8 bytes with
  | none => none
  | some (hi, bytes₁) =>
    match readU8 bytes₁ with
    | none => none
    | some (lo, bytes₂) =>
      if hi * 256 + lo < 2 then none else some (hi * 256 + lo - 2, bytes₂)

/-- Embedding of the `while length > 17` loop of `parse_dht`.  The
`DhtTables` container the source stores into is modelled as the pair of
four-slot destination arrays `dc`, `ac` (one per table class), starting
from `DhtTables::new()`'s all-empty slots.  Each iteration reads the
class/destination byte (baseline allows destinations 0–1, otherwise 0–3),
the 16 length counts (whose sum must be in `1..=256` and fit the remaining
declared length), and the values, builds the `HuffmanTable` and stores it
in slot `index` of its class; the trailing `length != 0` check is the
final format error. -/
def parseDhtGo (bytes : List Nat) (length : Nat)
    (dc ac : List (Option HuffmanTable)) ( is_baseline : Option Bool) :
    Option ((List (Option HuffmanTable) × List (Option HuffmanTable)) ×
      List Nat) :=
  if h17 : 17 < length then
    match readU8 bytes with
    | none => none
    | some (byte, bytes₁) =>
      if is_baseline = some true ∧ 1 < byte &&& 0x0f then none
      else if 3 < byte &&& 0x0f then none
      else
        match readN 16 bytes₁ with
        | none => none
        | some (counts, bytes₂) =>
          if counts.sum = 0 then none
          else if 256 < counts.sum then none
          else if length - 17 < counts.sum then none
          else
            match readN counts.sum bytes₂ with
            | none => none
            | some (values, bytes₃) =>
              match byte >>> 4 with
              | 0 =>
                match HuffmanTable.new counts values HuffmanTableClass.DC with
                | none => none
                | some table =>
                  parseDhtGo bytes₃ (length - (17 + counts.sum))
                    (dc.set (byte &&& 0x0f) (some table)) ac is_baseline
              | 1 =>
                match HuffmanTable.new counts values HuffmanTableClass.AC with
                | none => none
                | some table =>
                  parseDhtGo bytes₃ (length - (17 + counts.sum))
                    dc (ac.set (byte &&& 0x0f) (some table)) is_baseline
              | _ => none
  else if length = 0 then some ((dc, ac), bytes) else none
termination_by length
decreasing_by all_goals omega

/-- Embedding of `parse_dht`: read the segment length, then run the table
loop starting from the empty DC and AC slot arrays. -/
def parse_dht (bytes : List Nat) ( is_baseline : Option Bool) :
    Option ((List (Option HuffmanTable) × List (Option HuffmanTable)) ×
      List Nat) :=
  match read_length bytes with
  | none => none
  | some (length, rest) =>
    parseDhtGo rest length (List.replicate 4 none) (List.replicate 4 none)
      is_baseline

/-- Embedding of the slot merge in the DHT arm of
`Decoder::decode_internal` (decoder.rs lines 505–517): the freshly parsed
array is zipped with the decoder's current array and each pair is merged
with `a.or(b)` — the new table if the segment defined that slot, else the
previous occupant. -/
def applyDhtTables (parsed old : List (Option HuffmanTable)) :
    List (Option HuffmanTable) :=
  List.zipWith (fun a b => a.or b) parsed old

/-- Concrete DHT segment body: declared length 20 (18 after the length
field), a single DC table at destination 0 with one code of length 1 and
value 42. -/
def dhtWitnessBytes : List Nat :=
  [0, 20, 0] ++ [1, 0, 0, 0, 0, 0, 0, 0, 0, 0, 0, 0, 0, 0, 0, 0] ++ [42]

/-- The table `parse_dht` builds from `dhtWitnessBytes`. -/
def dhtWitnessTable : HuffmanTable :=
  { values := [42]
    value_offset := List.replicate 16 0
    maxcode := 0 :: List.replicate 15 (-1)
    lut := writeRange (List.replicate 256 (0, 0)) 0 128 (42, 1)
    fast_ac := none }

/-! ## C1: output buffer lengths
(src/decoder.rs lines 40–61, 171–194, 1300–1336 and 1339–1391;
src/worker/mod.rs lines 97–128; src/decoder/lossless.rs lines 228–260) -/

/-- Embedding of `PixelFormat`. -/
inductive PixelFormat where
  | L8
  | L16
  | RGB24
  | CMYK32
deriving DecidableEq, Repr

/-- Embedding of `PixelFormat::pixel_bytes`. -/
def PixelFormat.pixel_bytes : PixelFormat → Nat
  | .L8 => 1
  | .L16 => 2
  | .RGB24 => 3
  | .CMYK32 => 4

/-- Embedding of the pixel-format selection in `Decoder::info` from the
component count and the sample precision (the `panic!` arms are
`none`). -/
def pixelFormatFor (ncomp precision : Nat) : Option PixelFormat :=
  match ncomp with
  | 1 =>
    if 2 ≤ precision ∧ precision ≤ 8 then some PixelFormat.L8
    else if 9 ≤ precision ∧ precision ≤ 16 then some PixelFormat.L16
    else none
  | 3 => some PixelFormat.RGB24
  | 4 => some PixelFormat.CMYK32
  | _ => none

/-- Embedding of `ColorTransform`. -/
inductive ColorTransform where
  | None
  | Unknown
  | Grayscale
  | RGB
  | YCbCr
  | CMYK
  | YCCK
  | JcsBgYcc
  | JcsBgRgb
deriving DecidableEq, Repr

/-- Embedding of the fields of `parser::Component` that bear on image
composition. -/
structure Component where
  size : Dimensions
  block_size : Dimensions
  dct_scale : Nat
  h_sampling : Nat
  v_sampling : Nat
deriving DecidableEq, Repr

/-- Embedding of `choose_color_convert_func`, reduced to its
success/failure behaviour: 3 components accept the `None`, `RGB` and
`YCbCr` transforms, 4 components accept `None`, `CMYK` and `YCCK`;
every other pairing is a format or unsupported-feature error, and any
other component count is the `panic!` arm (also `none`). -/
def chooseColorConvertOk (ncomp : Nat) (ct : ColorTransform) :
    Option Unit :=
  match ncomp with
  | 3 =>
    match ct with
    | ColorTransform.None => some ()
    | ColorTransform.RGB => some ()
    | ColorTransform.YCbCr => some ()
    | _ => none
  | 4 =>
    match ct with
    | ColorTransform.None => some ()
    | ColorTransform.CMYK => some ()
    | ColorTransform.YCCK => some ()
    | _ => none
  | _ => none

/-- Modelled from the spec: `Upsampler::new` (upsampler.rs is not part of
this snapshot) accepts a component set exactly when every component's
subsampling ratio `(h_max / h_i, v_max / v_i)` is a pair of integers in
`{1, 2, 4}`, and otherwise rejects the frame. -/
def upsamplerNewOk (comps : List Component) : Bool :=
  comps.all (fun c =>
    decide (
      (comps.foldl (fun m d => max m d.h_sampling) 1) % c.h_sampling = 0 ∧
      ((comps.foldl (fun m d => max m d.h_sampling) 1) / c.h_sampling = 1 ∨
       (comps.foldl (fun m d => max m d.h_sampling) 1) / c.h_sampling = 2 ∨
       (comps.foldl (fun m d => max m d.h_sampling) 1) / c.h_sampling = 4) ∧
      (comps.foldl (fun m d => max m d.v_sampling) 1) % c.v_sampling = 0 ∧
      ((comps.foldl (fun m d => max m d.v_sampling) 1) / c.v_sampling = 1 ∨
       (comps.foldl (fun m d => max m d.v_sampling) 1) / c.v_sampling = 2 ∨
       (comps.foldl (fun m d => max m d.v_sampling) 1) / c.v_sampling = 4)))

/-- Modelled from the spec: one output line of
`Upsampler::upsample_and_interleave_row` followed by the in-place color
conversion — the interleaved samples of all components for one row.
Only its length, `width * ncomp`, bears on the claim. -/
def upsampleInterleaveRow (data : List (List Nat)) (row width ncomp : Nat) :
    List Nat :=
  (List.range (width * ncomp)).map (fun k =>
    (data.getD (k % ncomp) []).getD (row * width + k / ncomp) 0)

/-- Embedding of `compute_image_parallel` (worker/mod.rs lines 97–128):
after the color converter and the upsampler are validated, the output
raster of `line_size * height` bytes (`line_size` being output width
times component count) is produced line by line, each line fill writing
one disjoint `line_size`-byte chunk. -/
def compute_image_parallel (components : List Component)
    (data : List (List Nat)) (output_size : Dimensions)
    (color_transform : ColorTransform) : Option (List Nat) :=
  match chooseColorConvertOk components.length color_transform with
  | none => none
  | some _ =>
    if upsamplerNewOk components then
      some (((List.range output_size.height).map (fun row =>
        upsampleInterleaveRow data row output_size.width
          components.length)).flatten)
    else none

/-- Embedding of `Vec::copy_within(src..src+cnt, dst)` on byte lists
(modelled totally; only the post-`resize` length bears on the claim). -/
def copyWithin (l : List Nat) (src cnt dst : Nat) : List Nat :=
  l.take dst ++ (l.drop src).take cnt ++ l.drop (dst + cnt)

/-- Embedding of `Vec::resize(n, 0)` on byte lists. -/
def resizeList (l : List Nat) (n : Nat) : List Nat :=
  l.take n ++ List.replicate (n - l.length) 0

/-- Embedding of the line-compaction loop of `compute_image` (`for y in
1..height`, moving line `y` from stride spacing to width spacing). -/
def compactLines (l : List Nat) (width line_stride height : Nat) :
    List Nat :=
  (List.range' 1 (height - 1)).foldl
    (fun acc y => copyWithin acc (y * line_stride) width (y * width)) l

/-- Embedding of `compute_image` (decoder.rs lines 1300–1336): the
single-component fast path compacts the one plane (unless the output
width already equals the line stride) and resizes it to
`component.size.width * component.size.height`; multiple components go
through `compute_image_parallel`. -/
def compute_image (components : List Component) (data : List (List Nat))
    (output_size : Dimensions) (color_transform : ColorTransform) :
    Option (List Nat) :=
  if data.isEmpty || data.any (fun c => c.isEmpty) then none
  else if components.length = 1 then
    some (resizeList
      (if output_size.width ≠
          (components.headD ⟨⟨0, 0⟩, ⟨0, 0⟩, 0, 1, 1⟩).block_size.width *
            (components.headD ⟨⟨0, 0⟩, ⟨0, 0⟩, 0, 1, 1⟩).dct_scale then
        compactLines (data.headD [])
          (components.headD ⟨⟨0, 0⟩, ⟨0, 0⟩, 0, 1, 1⟩).size.width
          ((components.headD ⟨⟨0, 0⟩, ⟨0, 0⟩, 0, 1, 1⟩).block_size.width *
            (components.headD ⟨⟨0, 0⟩, ⟨0, 0⟩, 0, 1, 1⟩).dct_scale)
          (components.headD ⟨⟨0, 0⟩, ⟨0, 0⟩, 0, 1, 1⟩).size.height
      else data.headD [])
      ((components.headD ⟨⟨0, 0⟩, ⟨0, 0⟩, 0, 1, 1⟩).size.width *
        (components.headD ⟨⟨0, 0⟩, ⟨0, 0⟩, 0, 1, 1⟩).size.height))
  else compute_image_parallel components data output_size color_transform

/-- Embedding of the fields of `FrameInfo` that `compute_image_lossless`
reads (`components` is the component count). -/
structure LosslessFrame where
  precision : Nat
  output_size : Dimensions
  components : Nat
deriving DecidableEq, Repr

/-- Embedding of `convert_to_u8` (lossless.rs lines 252–260): 8-bit
precision truncates each `u16` sample to one byte; any other precision
emits the two native-endian bytes of each sample. -/
def convert_to_u8 (frame : LosslessFrame) (data : List Nat) : List Nat :=
  if frame.precision = 8 then data.map (fun x => x % 256)
  else (data.map (fun x => [x % 256, x / 256 % 256])).flatten

/-- Embedding of `compute_image_lossless` (lossless.rs lines 228–250): a
single component's plane is converted directly; otherwise the planes are
interleaved chunk-wise into an `ncomp * width * height` sample buffer
(reads past a plane's end, a panic in the source, are modelled totally)
before conversion. -/
def compute_image_lossless (frame : LosslessFrame)
    (data : List (List Nat)) : Option (List Nat) :=
  if data.isEmpty || data.any (fun c => c.isEmpty) then none
  else if frame.components = 1 then
    some (convert_to_u8 frame (data.headD []))
  else
    some (convert_to_u8 frame
      (((List.range (frame.output_size.width * frame.output_size.height)).map
        (fun x => (List.range frame.components).map
          (fun i => (data.getD i []).getD x 0))).flatten))

/-! ## Theorems -/

/-- For arguments in the range the parser admits (positive u16 length,
scale at most 8) the wrapping arithmetic in `scaled` never wraps and the
helper computes the plain floor formula. -/
theorem scaled_eq (len scale : Nat) (h1 : 1 ≤ len) (h2 : len < 2 ^ 16)
    (hs1 : 1 ≤ scale) (hs : scale ≤ 8) :
    scaled len scale = (len * scale - 1) / 8 + 1 := by
  have hb : len * scale ≤ (2 ^ 16 - 1) * 8 := Nat.mul_le_mul (by omega) hs
  have hb1 : 1 ≤ len * scale := by
    calc 1 = 1 * 1 := by norm_num
    _ ≤ len * scale := Nat.mul_le_mul h1 hs1
  unfold scaled
  generalize hx : len * scale = a at hb hb1 ⊢
  omega

/-- Claim C2, as the spec words it (with ceiling division), is false:
at full size 3×3 and requested size 2×2 the scale 1 already satisfies the
spec's ceiling formula `ceil((3*1-1)/8)+1 = 2 ≥ 2`, yet the code returns 8,
because with the code's floor formula no scale in {1, 2, 4} qualifies
(`(3*4-1)/8+1 = 2` only at scale 4: `(11)/8+1 = 2 ≥ 2`), so the smallest
qualifying scale per the spec (1) differs from the returned value. -/
theorem choose_idct_size_claim_counterexample :
    claimCondC2 ⟨3, 3⟩ ⟨2, 2⟩ 1 ∧ choose_idct_size ⟨3, 3⟩ ⟨2, 2⟩ ≠ 1 := by
  constructor
  · decide
  · decide

/-- Claim C2 amended: with the spec's ceiling division replaced by the
code's floor (integer) division, `choose_idct_size` returns the smallest
scale in {1, 2, 4} satisfying `(full_dim * scale - 1) / 8 + 1 ≥
requested_dim` on either axis, and 8 when none does. The width and height
must be positive and fit in u16, as the parser guarantees. -/
theorem choose_idct_size_smallest (full requested : Dimensions)
    (hw1 : 1 ≤ full.width) (hw2 : full.width < 2 ^ 16)
    (hh1 : 1 ≤ full.height) (hh2 : full.height < 2 ^ 16) :
    (choose_idct_size full requested = 1 ∧ codeCondC2 full requested 1) ∨
    (choose_idct_size full requested = 2 ∧ codeCondC2 full requested 2 ∧
      ¬ codeCondC2 full requested 1) ∨
    (choose_idct_size full requested = 4 ∧ codeCondC2 full requested 4 ∧
      ¬ codeCondC2 full requested 1 ∧ ¬ codeCondC2 full requested 2) ∨
    (choose_idct_size full requested = 8 ∧ ¬ codeCondC2 full requested 1 ∧
      ¬ codeCondC2 full requested 2 ∧ ¬ codeCondC2 full requested 4) := by
  have hc : ∀ s, 1 ≤ s → s ≤ 8 →
      ((scaled full.width s ≥ requested.width ∨
        scaled full.height s ≥ requested.height) ↔ codeCondC2 full requested s) := by
    intro s hs1 hs8
    unfold codeCondC2
    rw [scaled_eq full.width s hw1 hw2 hs1 hs8,
      scaled_eq full.height s hh1 hh2 hs1 hs8]
  have e1 := hc 1 (by norm_num) (by norm_num)
  have e2 := hc 2 (by norm_num) (by norm_num)
  have e4 := hc 4 (by norm_num) (by norm_num)
  unfold choose_idct_size
  rw [if_congr e1 rfl rfl, if_congr e2 rfl rfl, if_congr e4 rfl rfl]
  by_cases h1 : codeCondC2 full requested 1
  · left
    rw [if_pos h1]
    exact ⟨rfl, h1⟩
  · by_cases h2 : codeCondC2 full requested 2
    · right; left
      rw [if_neg h1, if_pos h2]
      exact ⟨rfl, h2, h1⟩
    · by_cases h4 : codeCondC2 full requested 4
      · right; right; left
        rw [if_neg h1, if_neg h2, if_pos h4]
        exact ⟨rfl, h4, h1, h2⟩
      · right; right; right
        rw [if_neg h1, if_neg h2, if_neg h4]
        exact ⟨rfl, h1, h2, h4⟩

/-- Witness for `choose_idct_size_smallest` at full size 5472×3648 and
requested size 1000×1000 (one of the source's own test vectors; the result
is 2). -/
theorem choose_idct_size_smallest_witness :
    (choose_idct_size ⟨5472, 3648⟩ ⟨1000, 1000⟩ = 2 ∧
      codeCondC2 ⟨5472, 3648⟩ ⟨1000, 1000⟩ 2 ∧
      ¬ codeCondC2 ⟨5472, 3648⟩ ⟨1000, 1000⟩ 1) ∨ False ∨ False ∨ False := by
  rcases choose_idct_size_smallest ⟨5472, 3648⟩ ⟨1000, 1000⟩
      (by decide) (by decide) (by decide) (by decide) with h | h | h | h
  · exact absurd h.1 (by decide)
  · exact Or.inl ⟨h.1, h.2.1, h.2.2⟩
  · exact absurd h.1 (by decide)
  · exact absurd h.1 (by decide)

/-- Claim C3 is contradicted by the code: for the output size 100×200 the
claim requires Multithreaded (100 × 200 = 20000 > 16384), but
`select_worker` compares width × width = 10000 ≤ 16384 — the local named
`height` is assigned `output_size.width` — and returns Immediate.  The
variable naming shows the intended comparison is width × height, so this is
a slip in the code rather than in the spec. -/
theorem select_worker_bug :
    select_worker ⟨100, 200⟩ .Multithreaded = .Immediate ∧
    (100 : Nat) * 200 > 128 * 128 := by
  constructor
  · decide
  · decide

set_option maxRecDepth 8192 in
/-- Claim C10, part one in decidable form: `from_u8` returns `None`
exactly on the bytes `0x00` and `0xFF`. -/
theorem marker_fromU8_none_iff :
    ∀ b : Fin 256, Marker.fromU8 b = none ↔ (b.val = 0x00 ∨ b.val = 0xFF) := by
  decide

/-- Neither loop of `read_marker` can reach the modelled panic: the unwrap
is guarded by `byte != 0x00 && byte != 0xFF`. -/
theorem read_marker_no_panic_aux (bytes : List (Fin 256)) :
    read_marker bytes ≠ .error .panicked ∧
    read_marker_after_ff bytes ≠ .error .panicked := by
  induction bytes with
  | nil => exact ⟨by simp [read_marker], by simp [read_marker_after_ff]⟩
  | cons b rest ih =>
    constructor
    · rw [read_marker]
      by_cases hff : b.val = 0xFF
      · rw [if_pos hff]; exact ih.2
      · rw [if_neg hff]; exact ih.1
    · rw [read_marker_after_ff]
      by_cases hff : b.val = 0xFF
      · rw [if_pos hff]; exact ih.2
      · rw [if_neg hff]
        by_cases h0 : b.val = 0x00
        · rw [if_pos h0]; exact ih.1
        · rw [if_neg h0]
          cases hm : Marker.fromU8 b with
          | some m => simp [hm]
          | none =>
            rcases (marker_fromU8_none_iff b).mp hm with h | h
            · exact absurd h h0
            · exact absurd h hff

/-- Claim C10: `Marker::from_u8` returns `Some` for every byte except
`0x00` and `0xFF`, and consequently the `unwrap` in `Decoder::read_marker`
(modelled as the `panicked` outcome) is unreachable for every input byte
stream. -/
theorem marker_fromU8_total_and_read_marker_safe :
    (∀ b : Fin 256, Marker.fromU8 b = none ↔ (b.val = 0x00 ∨ b.val = 0xFF)) ∧
    ∀ bytes : List (Fin 256), read_marker bytes ≠ .error .panicked :=
  ⟨marker_fromU8_none_iff, fun bytes => (read_marker_no_panic_aux bytes).1⟩

/-- Interpretation as i32 is the identity below `2^31`. -/
theorem toI32_small (v : Nat) (h : v < 2 ^ 31) : toI32 v = (v : Int) := by
  unfold toI32
  rw [if_pos h]

/-- Wrapping into i32 is the identity on the i32 range. -/
theorem wrapI32_eq_self (x : Int) (h1 : -(2 ^ 31) ≤ x) (h2 : x < 2 ^ 31) :
    wrapI32 x = x := by
  unfold wrapI32
  rw [Int.emod_eq_of_lt (by omega) (by omega)]
  omega

/-- Shifting `-1` (bit pattern `0xFFFFFFFF`) left by `count < 32` as an i32
yields `-(2^count)`. -/
theorem toI32_shl_all_ones (count : Nat) (h : count ≤ 31) :
    toI32 (shlMasked32 (2 ^ 32 - 1) count) = -(2 ^ count : Int) := by
  have hp1 : (1 : Nat) ≤ 2 ^ count := Nat.one_le_two_pow
  have hple : (2 : Nat) ^ count ≤ 2 ^ 31 := Nat.pow_le_pow_right (by norm_num) h
  have hmod : count % 32 = count := Nat.mod_eq_of_lt (by omega)
  unfold shlMasked32
  rw [hmod, Nat.shiftLeft_eq]
  have hval : (2 ^ 32 - 1) * 2 ^ count % 2 ^ 32 = 2 ^ 32 - 2 ^ count := by
    have h1 : (2 ^ 32 - 1) * 2 ^ count = 2 ^ count * 2 ^ 32 - 2 ^ count := by
      ring_nf
      omega
    rw [h1]
    have h2 : 2 ^ count * 2 ^ 32 - 2 ^ count =
        (2 ^ count - 1) * 2 ^ 32 + (2 ^ 32 - 2 ^ count) := by
      generalize (2 : Nat) ^ count = a at hp1 hple ⊢
      omega
    rw [h2, Nat.add_comm, Nat.add_mul_mod_self_right,
      Nat.mod_eq_of_lt (by omega)]
  rw [hval]
  unfold toI32
  rw [if_neg (by omega)]
  rw [Nat.cast_sub (le_trans hple (by norm_num))]
  push_cast
  ring

/-- The vt threshold in `extend` for `1 ≤ count ≤ 15` is `2^(count-1)`. -/
theorem extend_vt (count : Nat) (h1 : 1 ≤ count) (h15 : count ≤ 15) :
    toI32 (shlMasked32 1 ((count + (2 ^ 32 - 1)) % 2 ^ 32)) =
      (2 ^ (count - 1) : Int) := by
  have hsub : (count + (2 ^ 32 - 1)) % 2 ^ 32 = count - 1 := by omega
  rw [hsub]
  unfold shlMasked32
  rw [Nat.mod_eq_of_lt (by omega : count - 1 < 32), Nat.shiftLeft_eq, one_mul,
    Nat.mod_eq_of_lt (Nat.pow_lt_pow_right (by norm_num) (by omega))]
  rw [toI32_small _ (Nat.pow_lt_pow_right (by norm_num) (by omega))]
  push_cast
  rfl

/-- The value `extend` receives lies below `2^count`, so the sign-extension
arithmetic stays within i32 range and yields the Figure F.12 value. -/
theorem extend_range (value : Int) (count : Nat) (h1 : 1 ≤ count)
    (h15 : count ≤ 15) (hv0 : 0 ≤ value) (hv : value < 2 ^ count) :
    -(2 ^ count - 1) ≤ extend value count ∧ extend value count ≤ 2 ^ count - 1 := by
  have hcle : (2 : Int) ^ count ≤ 2 ^ 15 := by
    exact_mod_cast Nat.pow_le_pow_right (by norm_num) h15
  unfold extend
  rw [extend_vt count h1 h15, toI32_shl_all_ones count (by omega)]
  by_cases hlt : value < (2 ^ (count - 1) : Int)
  · rw [if_pos hlt]
    rw [wrapI32_eq_self _ (by norm_num; omega) (by norm_num; omega)]
    constructor <;> omega
  · rw [if_neg hlt]
    constructor <;> omega

/-- Claim C6, as stated (with `n = 0` included), is false: with a full
bit buffer of 32 one-bits, `receive_extend(0)` does not return 0 — in a
release build `receive(0)` returns the whole 32-bit buffer because both
shift amounts `32 - 0` are masked to zero, and `extend(value, 0)` computes
the threshold `1 << (0u32 - 1)`, i.e. `i32::MIN`, so the buffer value `-1`
is returned unchanged, outside the claimed range `-(2^0-1) ..= 2^0-1 =
{0}`. -/
theorem receive_extend_zero_counterexample :
    (∃ b n, receive_extend (2 ^ 32 - 1) 32 0 = some (-1, b, n)) ∧
    ¬ (-((2 : Int) ^ 0 - 1) ≤ -1 ∧ (-1 : Int) ≤ 2 ^ 0 - 1) := by
  constructor
  · exact ⟨2 ^ 32 - 1, 32, by decide⟩
  · decide

/-- Claim C6 amended: for `n` in `1..=15` and a bit buffer holding at least
`n` valid bits, `receive_extend(n)` succeeds and its result lies in
`-(2^n - 1) ..= 2^n - 1`. -/
theorem receive_extend_in_range (bits numBits count : Nat)
    (hb : bits < 2 ^ 32) (h1 : 1 ≤ count) (h15 : count ≤ 15)
    (hn : count ≤ numBits) :
    ∃ v b n, receive_extend bits numBits count = some (v, b, n) ∧
      -(2 ^ count - 1) ≤ v ∧ v ≤ 2 ^ count - 1 := by
  unfold receive_extend receive
  rw [if_pos hn]
  simp only [Option.some.injEq]
  set value := shrMasked32 (bits &&& shlMasked32 0xffffffff (32 - count))
    (32 - count) with hval
  have hvlt : value < 2 ^ count := by
    rw [hval]
    unfold shrMasked32
    rw [Nat.mod_eq_of_lt (by omega : 32 - count < 32),
      Nat.shiftRight_eq_div_pow,
      Nat.div_lt_iff_lt_mul (by positivity)]
    calc bits &&& shlMasked32 0xffffffff (32 - count) ≤ bits :=
      Nat.and_le_left
    _ < 2 ^ 32 := hb
    _ = 2 ^ count * 2 ^ (32 - count) := by
      rw [← pow_add]
      congr 1
      omega
  have hsmall : value < 2 ^ 31 :=
    lt_of_lt_of_le hvlt (Nat.pow_le_pow_right (by norm_num) (by omega))
  have := extend_range (toI32 value) count h1 h15
    (by rw [toI32_small _ hsmall]; positivity)
    (by rw [toI32_small _ hsmall]; exact_mod_cast hvlt)
  exact ⟨_, _, _, rfl, this.1, this.2⟩

/-- Witness for `receive_extend_in_range`: a buffer whose top three bits
are `010` with `n = 3` yields `receive_extend = -5`, inside `-7 ..= 7`. -/
theorem receive_extend_in_range_witness :
    ∃ v b n, receive_extend 0x40000000 32 3 = some (v, b, n) ∧
      -(2 ^ 3 - 1) ≤ v ∧ v ≤ 2 ^ 3 - 1 :=
  receive_extend_in_range 0x40000000 32 3 (by norm_num) (by norm_num)
    (by norm_num) (by norm_num)

/-- Claim C9: the decoded magnitude category must lie in `0..=16` with any
larger (u8) value a format error; `t = 0` gives difference 0, `t` in
`1..=15` gives `receive_extend(t)`, `t = 16` gives 32768; and the
reconstructed sample is `((prediction + diff) & 0xFFFF) << point_transform`
— the reduction modulo `2^16` is applied before the point-transform shift
(the shift itself is a u16 shift). -/
theorem lossless_diff_and_reconstruct :
    (∀ bits numBits, lossless_diff 0 bits numBits = some (0, bits, numBits)) ∧
    (∀ t bits numBits, 1 ≤ t → t ≤ 15 →
      lossless_diff t bits numBits = receive_extend bits numBits t) ∧
    (∀ bits numBits, lossless_diff 16 bits numBits = some (32768, bits, numBits)) ∧
    (∀ t bits numBits, 17 ≤ t → t ≤ 255 → lossless_diff t bits numBits = none) ∧
    (∀ prediction diff pt, pt ≤ 15 →
      reconstruct_sample prediction diff pt =
        (((prediction + diff) % 65536).toNat * 2 ^ pt) % 65536) := by
  refine ⟨fun bits numBits => rfl, ?_, fun bits numBits => rfl, ?_, ?_⟩
  · intro t bits numBits h1 h15
    unfold lossless_diff
    rw [if_neg (by omega), if_pos ⟨h1, h15⟩]
  · intro t bits numBits h17 h255
    unfold lossless_diff
    rw [if_neg (by omega), if_neg (by omega), if_neg (by omega)]
  · intro prediction diff pt hpt
    unfold reconstruct_sample
    rw [Nat.mod_eq_of_lt (by omega : pt < 16), Nat.shiftLeft_eq]
    norm_num

/-- Witness for `lossless_diff_and_reconstruct`: category 5 defers to
`receive_extend(5)`, and the sample for prediction 32767, difference 1,
point transform 1 is `(32768 << 1) mod 2^16 = 0` by both formulas. -/
theorem lossless_diff_and_reconstruct_witness :
    lossless_diff 5 0 32 = receive_extend 0 32 5 ∧
    lossless_diff 42 0 32 = none ∧
    reconstruct_sample 32767 1 1 = ((((32767 : Int) + 1) % 65536).toNat * 2 ^ 1) % 65536 :=
  ⟨lossless_diff_and_reconstruct.2.1 5 0 32 (by norm_num) (by norm_num),
   lossless_diff_and_reconstruct.2.2.2.1 42 0 32 (by norm_num) (by norm_num),
   lossless_diff_and_reconstruct.2.2.2.2 32767 1 1 (by norm_num)⟩

/-- Unfolding induction for the equivalence: over a range of given length
the code's loop agrees with the claim's walk. -/
theorem refine_non_zeroes_eq_walk_aux (stream : Nat → Bool) (bit : Int)
    (n : Nat) :
    ∀ (coeffs : List Int) (pos start stop zrl : Nat), stop - start = n →
      refine_non_zeroes stream coeffs pos start stop zrl bit =
        refineWalkSpec stream coeffs pos (List.range' start n) (stop - 1)
          zrl bit := by
  induction n with
  | zero =>
    intro coeffs pos start stop zrl hn
    rw [refine_non_zeroes, dif_neg (by omega)]
    rfl
  | succ m ih =>
    intro coeffs pos start stop zrl hn
    rw [refine_non_zeroes, dif_pos (by omega), List.range'_succ]
    simp only [refineWalkSpec]
    have hms : stop - (start + 1) = m := by omega
    by_cases hc : coeffs.getD (UNZIGZAG.getD start 0) 0 = 0
    · rw [if_pos hc, if_pos hc]
      by_cases hz : zrl = 0
      · rw [if_pos hz, if_pos hz]
      · rw [if_neg hz, if_neg hz, ih coeffs pos (start + 1) stop (zrl - 1) hms]
    · rw [if_neg hc, if_neg hc]
      by_cases hb : stream pos = true ∧
          landI16 (coeffs.getD (UNZIGZAG.getD start 0) 0) bit = 0
      · rw [if_pos hb, if_pos hb]
        by_cases hpos : 0 < coeffs.getD (UNZIGZAG.getD start 0) 0
        · rw [if_pos hpos, if_pos hpos]
          by_cases hov : coeffs.getD (UNZIGZAG.getD start 0) 0 + bit ≤ 32767
          · rw [if_pos hov, if_pos hov, ih _ (pos + 1) (start + 1) stop zrl hms]
          · rw [if_neg hov, if_neg hov]
        · rw [if_neg hpos, if_neg hpos]
          by_cases hov : -32768 ≤ coeffs.getD (UNZIGZAG.getD start 0) 0 - bit
          · rw [if_pos hov, if_pos hov, ih _ (pos + 1) (start + 1) stop zrl hms]
          · rw [if_neg hov, if_neg hov]
      · rw [if_neg hb, if_neg hb, ih coeffs (pos + 1) (start + 1) stop zrl hms]

/-- Claim C7: over a non-empty range `[start, stop)` of zigzag positions,
`refine_non_zeroes` performs exactly the walk the claim describes
(`refineWalkSpec` over the positions `start, start+1, …, stop-1` with
default result the last index `stop - 1`): zero coefficients consume the
zero-run length and the position is returned once it is exhausted,
non-zero coefficients whose refinement bit is unset are incremented by
`+bit` (positive) or `-bit` (negative) under the next input bit, with
checked arithmetic whose overflow is a format error, and otherwise the
last index of the range is returned. -/
theorem refine_non_zeroes_spec (stream : Nat → Bool) (coeffs : List Int)
    (pos start stop zrl : Nat) (bit : Int) (hne : start < stop) :
    refine_non_zeroes stream coeffs pos start stop zrl bit =
      refineWalkSpec stream coeffs pos (List.range' start (stop - start))
        (stop - 1) zrl bit :=
  refine_non_zeroes_eq_walk_aux stream bit (stop - start) coeffs pos start
    stop zrl rfl

/-- Witness for `refine_non_zeroes_spec`: a concrete refinement pass over
the range `[1, 4)` with one positive and one negative coefficient and an
all-ones bit stream. -/
theorem refine_non_zeroes_spec_witness :
    refine_non_zeroes (fun _ => true)
        ((List.replicate 64 0).set 1 3 |>.set 16 (-4)) 0 1 4 1 2 =
      refineWalkSpec (fun _ => true)
        ((List.replicate 64 0).set 1 3 |>.set 16 (-4)) 0
        (List.range' 1 3) 3 1 2 :=
  refine_non_zeroes_spec (fun _ => true) _ 0 1 4 1 2 (by norm_num)

/-- Multiplying the zero vector lanewise gives the zero vector of the
other operand's length. -/
theorem vMul_zero (k : Nat) (q : List Int) :
    vMul (List.replicate k 0) q = List.replicate (min k q.length) 0 := by
  induction q generalizing k with
  | nil => simp [vMul]
  | cons a q ih =>
    cases k with
    | zero => simp [vMul]
    | succ m =>
      simp only [List.replicate_succ, vMul, List.zipWith_cons_cons,
        List.length_cons]
      have hz : wrapI32 (0 * a) = 0 := by norm_num [wrapI32]
      rw [hz]
      have := ih m
      unfold vMul at this
      rw [this]
      have hmin : min (m + 1) (q.length + 1) = min m q.length + 1 := by omega
      rw [hmin, List.replicate_succ]

/-- Dequantizing the all-zero coefficient block yields the all-zero rows,
for every 64-entry quantization table. -/
theorem dequantize8x8_zero (qt : List Int) (h : qt.length = 64) :
    dequantize8x8 (List.replicate 64 0) qt =
      List.replicate 8 (List.replicate 8 0) := by
  unfold dequantize8x8
  have hrow : ∀ i, i < 8 → rowSlice (List.replicate 64 (0 : Int)) (8 * i) 8 =
      List.replicate 8 0 := by
    intro i hi
    unfold rowSlice
    rw [List.drop_replicate, List.take_replicate]
    congr 1
    omega
  have hq : ∀ i, i < 8 → (rowSlice qt (8 * i) 8).length = 8 := by
    intro i hi
    unfold rowSlice
    rw [List.length_take, List.length_drop, h]
    omega
  have : ∀ i, i < 8 → vMul (rowSlice (List.replicate 64 (0 : Int)) (8 * i) 8)
      (rowSlice qt (8 * i) 8) = List.replicate 8 0 := by
    intro i hi
    rw [hrow i hi, vMul_zero, hq i hi, Nat.min_self]
  simp only [List.range_succ, List.map_append, List.map_cons, List.map_nil,
    show (List.range 8) = [0, 1, 2, 3, 4, 5, 6, 7] by rfl]
  rw [this 0 (by norm_num), this 1 (by norm_num), this 2 (by norm_num),
    this 3 (by norm_num), this 4 (by norm_num), this 5 (by norm_num),
    this 6 (by norm_num), this 7 (by norm_num)]
  rfl

set_option maxRecDepth 65536 in
/-- Claim C5: `dequantize_and_idct_block` at scale 8 on the all-zero
64-coefficient block writes the value 128 to all 64 output positions (here:
a 64-byte output buffer initially filled with 7, linestride 8), for every
64-entry quantization table. -/
theorem idct_zero_block_all_128 (qt : List Int) (h : qt.length = 64) :
    dequantize_and_idct_block 8 (List.replicate 64 0) qt 8
      (List.replicate 64 7) = some (List.replicate 64 128) := by
  have hcore : idct8x8core (List.replicate 8 (List.replicate 8 0)) 8
      (List.replicate 64 7) = List.replicate 64 128 := by decide
  show some (dequantize_and_idct_block_8x8 (List.replicate 64 0) qt 8
    (List.replicate 64 7)) = some (List.replicate 64 128)
  unfold dequantize_and_idct_block_8x8
  rw [dequantize8x8_zero qt h, hcore]

/-- Witness for `idct_zero_block_all_128` at the quantization table of all
ones. -/
theorem idct_zero_block_all_128_witness :
    dequantize_and_idct_block 8 (List.replicate 64 0)
      (List.replicate 64 1) 8 (List.replicate 64 7) =
      some (List.replicate 64 128) :=
  idct_zero_block_all_128 (List.replicate 64 1) (by simp)

/-! ### Properties of the size list -/

/-- Length of `sizesFrom`: the total symbol count. -/
theorem sizesFrom_length (bits : List Nat) :
    ∀ len, (sizesFrom bits len).length = bits.sum := by
  induction bits with
  | nil => intro len; rfl
  | cons c rest ih =>
    intro len
    simp [sizesFrom, ih, List.sum_cons]

/-- Every emitted size is at least the starting length and less than the
starting length plus the count-list length. -/
theorem sizesFrom_mem_bounds (bits : List Nat) :
    ∀ len v, v ∈ sizesFrom bits len → len ≤ v ∧ v < len + bits.length := by
  induction bits with
  | nil => intro len v hv; simp [sizesFrom] at hv
  | cons c rest ih =>
    intro len v hv
    simp only [sizesFrom, List.mem_append, List.mem_replicate] at hv
    rcases hv with ⟨-, rfl⟩ | hv
    · simp
    · have := ih (len + 1) v hv
      constructor
      · omega
      · simp only [List.length_cons]
        omega

/-- The emitted sizes are non-decreasing. -/
theorem sizesFrom_pairwise (bits : List Nat) :
    ∀ len, (sizesFrom bits len).Pairwise (· ≤ ·) := by
  induction bits with
  | nil => intro len; simp [sizesFrom]
  | cons c rest ih =>
    intro len
    unfold sizesFrom
    rw [List.pairwise_append]
    refine ⟨List.pairwise_replicate.mpr (Or.inr le_rfl), ih (len + 1), ?_⟩
    intro a ha b hb
    rw [List.eq_of_mem_replicate ha]
    have := sizesFrom_mem_bounds rest (len + 1) b hb
    omega

/-- Size of the symbol at position `prefix-sum i + r`: exactly `len + i`
(the i-th slot emits sizes `len + i`). -/
theorem sizesFrom_getD (bits : List Nat) :
    ∀ len i r, i < bits.length → r < bits.getD i 0 →
      (sizesFrom bits len).getD ((bits.take i).sum + r) 0 = len + i := by
  induction bits with
  | nil => intro len i r hi; simp at hi
  | cons c rest ih =>
    intro len i r hi hr
    cases i with
    | zero =>
      simp only [List.take_zero, List.sum_nil, Nat.zero_add, sizesFrom]
      rw [List.getD_append _ _ _ _ (by simpa using hr)]
      rw [List.getD_eq_getElem?_getD]
      rw [List.getElem?_replicate]
      simp only [List.getD_cons_zero] at hr
      simp [hr]
    | succ i' =>
      simp only [List.take_succ_cons, List.sum_cons, sizesFrom]
      rw [Nat.add_assoc, List.getD_append_right _ _ _ _
        (by simp only [List.length_replicate]; omega)]
      simp only [List.length_replicate, Nat.add_sub_cancel_left]
      have := ih (len + 1) i' r (by simpa using hi) (by simpa using hr)
      omega

/-- Every symbol position decomposes as a prefix sum plus an offset within
its length run. -/
theorem sizesFrom_pos_decomp (bits : List Nat) :
    ∀ j, j < bits.sum →
      ∃ i r, i < bits.length ∧ r < bits.getD i 0 ∧
        j = (bits.take i).sum + r := by
  induction bits with
  | nil => intro j hj; simp at hj
  | cons c rest ih =>
    intro j hj
    by_cases hjc : j < c
    · exact ⟨0, j, by simp, by simpa using hjc, by simp⟩
    · have hj' : j - c < rest.sum := by
        simp only [List.sum_cons] at hj
        omega
      obtain ⟨i, r, hi, hr, heq⟩ := ih (j - c) hj'
      exact ⟨i + 1, r, by simpa using hi, by simpa using hr,
        by simp [List.take_succ_cons, List.sum_cons]; omega⟩

/-! ### Properties of the code-assignment loop -/

/-- Step of the Kraft mass over a `take`. -/
theorem codeMass_take_succ (l : List Nat) (k : Nat) (hk : k < l.length) :
    codeMass (l.take (k + 1)) = codeMass (l.take k) + 2 ^ (16 - l.getD k 0) := by
  rw [List.take_succ]
  unfold codeMass
  rw [List.map_append, List.sum_append]
  congr 1
  rw [List.getElem?_eq_getElem hk]
  simp [List.getD_eq_getElem?_getD, List.getElem?_eq_getElem hk]

/-- Monotonicity of the Kraft mass over `take`. -/
theorem codeMass_take_mono (l : List Nat) {a b : Nat} (hab : a ≤ b) :
    codeMass (l.take a) ≤ codeMass (l.take b) := by
  induction b with
  | zero =>
    have ha : a = 0 := by omega
    subst ha
    exact le_rfl
  | succ m ih =>
    rcases Nat.lt_or_ge a (m + 1) with h | h
    · have ha : a ≤ m := by omega
      refine le_trans (ih ha) ?_
      by_cases hml : m < l.length
      · rw [codeMass_take_succ l m hml]
        exact Nat.le_add_right _ _
      · rw [List.take_of_length_le (by omega),
          List.take_of_length_le (by omega)]
    · have ha : a = m + 1 := by omega
      subst ha
      exact le_rfl

/-- The mass of any `take` is at most the full mass. -/
theorem codeMass_take_le (l : List Nat) (k : Nat) :
    codeMass (l.take k) ≤ codeMass l := by
  rcases Nat.le_total k l.length with h | h
  · have := codeMass_take_mono l h
    rwa [List.take_length] at this
  · rw [List.take_of_length_le h]

/-- Characterization of the canonical code-assignment loop under the Kraft
bound: it succeeds and each code left-justified to 16 bits equals the
accumulated Kraft mass of the preceding symbols. -/
theorem buildCodes_spec : ∀ (l : List Nat) (code size : Nat),
    l.Pairwise (· ≤ ·) → (∀ v ∈ l, size ≤ v) → (∀ v ∈ l, v ≤ 16) →
    size ≤ 16 →
    code * 2 ^ (16 - size) + codeMass l ≤ 2 ^ 16 →
    ∃ codes, buildCodes l code size = some codes ∧
      codes.length = l.length ∧
      ∀ k, k < l.length →
        (codes.getD k 0) * 2 ^ (16 - l.getD k 0) =
          code * 2 ^ (16 - size) + codeMass (l.take k) ∧
        codes.getD k 0 < 2 ^ (l.getD k 0) := by
  intro l
  induction l with
  | nil =>
    intro code size _ _ _ _ _
    exact ⟨[], rfl, rfl, fun k hk => absurd hk (by simp)⟩
  | cons v rest ih =>
    intro code size hpair hlo h16 hsz16 hbound
    have hsv : size ≤ v := hlo v (by simp)
    have hv16 : v ≤ 16 := h16 v (by simp)
    have hmass_cons : codeMass (v :: rest) = 2 ^ (16 - v) + codeMass rest := by
      simp [codeMass]
    -- the unwrapped shifted code
    have hsplit : 2 ^ (16 - size) = 2 ^ (v - size) * 2 ^ (16 - v) := by
      rw [← pow_add]
      congr 1
      omega
    have hU : code * 2 ^ (v - size) * 2 ^ (16 - v) = code * 2 ^ (16 - size) := by
      rw [hsplit, Nat.mul_assoc]
    have hUb : (code * 2 ^ (v - size) + 1) * 2 ^ (16 - v) ≤ 2 ^ 16 := by
      rw [Nat.add_mul, Nat.one_mul, hU]
      rw [hmass_cons] at hbound
      omega
    have hUlt : code * 2 ^ (v - size) < 2 ^ v := by
      have h2 : 2 ^ v * 2 ^ (16 - v) = 2 ^ 16 := by
        rw [← pow_add]
        congr 1
        omega
      by_contra hge
      push_neg at hge
      have : (2 ^ v + 1) * 2 ^ (16 - v) ≤ 2 ^ 16 :=
        le_trans (Nat.mul_le_mul_right _ (by omega)) hUb
      rw [Nat.add_mul, Nat.one_mul, h2] at this
      have hpos : 0 < 2 ^ (16 - v) := Nat.pos_pow_of_pos _ (by norm_num)
      omega
    have hUsmall : code * 2 ^ (v - size) < 2 ^ 16 :=
      lt_of_lt_of_le hUlt (Nat.pow_le_pow_right (by norm_num) hv16)
    have hshift : (code <<< (v - size)) % 2 ^ 16 = code * 2 ^ (v - size) := by
      rw [Nat.shiftLeft_eq, Nat.mod_eq_of_lt hUsmall]
    -- the check passes
    rw [buildCodes, hshift]
    rw [if_pos hUlt]
    set U := code * 2 ^ (v - size) with hUdef
    -- recursive call
    cases rest with
    | nil =>
      refine ⟨[U], by rw [buildCodes], by simp, ?_⟩
      intro k hk
      have hk0 : k = 0 := by simpa using hk
      subst hk0
      refine ⟨?_, by simpa using hUlt⟩
      simp only [List.getD_cons_zero, List.take_zero]
      rw [hU]
      simp [codeMass]
    | cons r rrest =>
      have hrmass : 1 ≤ codeMass (r :: rrest) := by
        have : (1 : Nat) ≤ 2 ^ (16 - r) := Nat.one_le_two_pow
        simp only [codeMass, List.map_cons, List.sum_cons]
        omega
      have hU1small : U + 1 < 2 ^ 16 := by
        have hpos : 1 ≤ 2 ^ (16 - v) := Nat.one_le_two_pow
        nlinarith [hUb, hrmass, hbound, hmass_cons]
      have hmod1 : (U + 1) % 2 ^ 16 = U + 1 := Nat.mod_eq_of_lt hU1small
      rw [hmod1]
      have hpair' := (List.pairwise_cons.mp hpair).2
      have hlo' := (List.pairwise_cons.mp hpair).1
      have hbound' : (U + 1) * 2 ^ (16 - v) + codeMass (r :: rrest) ≤ 2 ^ 16 := by
        rw [Nat.add_mul, Nat.one_mul, hU]
        rw [hmass_cons] at hbound
        omega
      obtain ⟨cs, hcs, hlen, hchar⟩ := ih (U + 1) v hpair'
        (fun x hx => hlo' x hx) (fun x hx => h16 x (by simp [hx])) hv16 hbound'
      rw [hcs]
      refine ⟨U :: cs, rfl, by simp [hlen], ?_⟩
      intro k hk
      cases k with
      | zero =>
        refine ⟨?_, by simpa using hUlt⟩
        simp only [List.getD_cons_zero, List.take_zero]
        rw [hU]
        simp [codeMass]
      | succ k' =>
        have hk' : k' < (r :: rrest).length := by simpa using hk
        obtain ⟨hc1, hc2⟩ := hchar k' hk'
        refine ⟨?_, by simpa using hc2⟩
        simp only [List.getD_cons_succ, List.take_succ_cons]
        rw [hc1, Nat.add_mul, Nat.one_mul, hU]
        have : codeMass (v :: (r :: rrest).take k') =
            2 ^ (16 - v) + codeMass ((r :: rrest).take k') := by
          simp [codeMass]
        omega

/-! ### LUT fill loop lemmas -/

/-- The range write preserves the list length. -/
theorem writeRangeGo_length (l : List (Nat × Nat)) :
    ∀ k start cnt v, (writeRangeGo l k start cnt v).length = l.length := by
  induction l with
  | nil => intro k start cnt v; rfl
  | cons x rest ih =>
    intro k start cnt v
    simp [writeRangeGo, ih]

/-- Entry of a range write: the written value inside the range, the
original entry outside. -/
theorem writeRangeGo_getD (l : List (Nat × Nat)) :
    ∀ k0 start cnt v n,
      (writeRangeGo l k0 start cnt v).getD n (0, 0) =
        if start ≤ k0 + n ∧ k0 + n < start + cnt ∧ n < l.length then v
        else l.getD n (0, 0) := by
  induction l with
  | nil =>
    intro k0 start cnt v n
    simp [writeRangeGo]
  | cons x rest ih =>
    intro k0 start cnt v n
    cases n with
    | zero =>
      simp only [writeRangeGo, List.getD_cons_zero, List.length_cons]
      by_cases hc : start ≤ k0 ∧ k0 < start + cnt
      · rw [if_pos hc, if_pos (by omega)]
      · rw [if_neg hc, if_neg (by omega)]
    | succ n' =>
      simp only [writeRangeGo, List.getD_cons_succ, List.length_cons]
      rw [ih (k0 + 1) start cnt v n']
      by_cases hc : start ≤ k0 + 1 + n' ∧ k0 + 1 + n' < start + cnt ∧
          n' < rest.length
      · rw [if_pos hc, if_pos (by omega)]
      · rw [if_neg hc, if_neg (by omega)]

/-- Length preservation for one LUT fill step. -/
theorem lutStep_length (huffcode huffsize : List Nat)
    (lut : List (Nat × Nat)) (p : Nat × Nat) :
    (lutStep huffcode huffsize lut p).length = lut.length := by
  unfold lutStep writeRange
  by_cases hs : huffsize.getD p.1 0 ≤ 8
  · rw [if_pos hs, writeRangeGo_length]
  · rw [if_neg hs]

/-- A fill step does not change slots its symbol does not cover. -/
theorem lutStep_getD_of_not_covers (huffcode huffsize : List Nat)
    (lut : List (Nat × Nat)) (i v k : Nat)
    (h : ¬ coversIdx huffcode huffsize i k) :
    (lutStep huffcode huffsize lut (i, v)).getD k (0, 0) =
      lut.getD k (0, 0) := by
  unfold lutStep
  dsimp only
  by_cases hs : huffsize.getD i 0 ≤ 8
  · rw [if_pos hs]
    unfold writeRange
    rw [writeRangeGo_getD]
    have hnc : ¬ ((huffcode.getD i 0 <<< (8 - huffsize.getD i 0)) % 2 ^ 16 ≤
        0 + k ∧ 0 + k < (huffcode.getD i 0 <<< (8 - huffsize.getD i 0)) %
          2 ^ 16 + 2 ^ (8 - huffsize.getD i 0) ∧ k < lut.length) := by
      rintro ⟨h1, h2, h3⟩
      refine h ⟨hs, ?_, ?_⟩ <;> unfold lutStart <;> omega
    rw [if_neg hnc]
  · rw [if_neg hs]

/-- A fill step writes `(value, size)` to every slot its symbol covers. -/
theorem lutStep_getD_of_covers (huffcode huffsize : List Nat)
    (lut : List (Nat × Nat)) (i v k : Nat)
    (h : coversIdx huffcode huffsize i k) (hk : k < lut.length) :
    (lutStep huffcode huffsize lut (i, v)).getD k (0, 0) =
      (v, huffsize.getD i 0) := by
  obtain ⟨hs, h1, h2⟩ := h
  unfold lutStart at h1 h2
  unfold lutStep
  dsimp only
  rw [if_pos hs]
  unfold writeRange
  rw [writeRangeGo_getD]
  rw [if_pos ⟨by omega, by omega, hk⟩]

/-- Folding the fill loop over symbols none of which covers slot `k`
leaves the slot unchanged. -/
theorem lutFold_none (huffcode huffsize : List Nat) (vs : List Nat) :
    ∀ (m : Nat) (lut : List (Nat × Nat)) (k : Nat),
      (∀ i, m ≤ i → i < m + vs.length → ¬ coversIdx huffcode huffsize i k) →
      ((vs.enumFrom m).foldl (lutStep huffcode huffsize) lut).getD k (0, 0) =
        lut.getD k (0, 0) := by
  induction vs with
  | nil => intro m lut k _; rfl
  | cons v rest ih =>
    intro m lut k hnone
    show ((rest.enumFrom (m + 1)).foldl (lutStep huffcode huffsize)
      (lutStep huffcode huffsize lut (m, v))).getD k (0, 0) = _
    rw [ih (m + 1) _ k (fun i h1 h2 => hnone i (by omega)
      (by simp only [List.length_cons]; omega))]
    exact lutStep_getD_of_not_covers huffcode huffsize lut m v k
      (hnone m le_rfl (by simp only [List.length_cons]; omega))

/-- Folding the fill loop when exactly one processed symbol covers slot
`k`: the slot holds that symbol's `(value, size)`. -/
theorem lutFold_unique (huffcode huffsize : List Nat) (vs : List Nat) :
    ∀ (m : Nat) (lut : List (Nat × Nat)) (k j : Nat),
      m ≤ j → j < m + vs.length →
      coversIdx huffcode huffsize j k →
      (∀ i, m ≤ i → i < m + vs.length → i ≠ j →
        ¬ coversIdx huffcode huffsize i k) →
      k < lut.length →
      ((vs.enumFrom m).foldl (lutStep huffcode huffsize) lut).getD k (0, 0) =
        (vs.getD (j - m) 0, huffsize.getD j 0) := by
  induction vs with
  | nil =>
    intro m lut k j h1 h2 _ _ _
    simp only [List.length_nil] at h2
    omega
  | cons v rest ih =>
    intro m lut k j hmj hjlt hcov huniq hk
    show ((rest.enumFrom (m + 1)).foldl (lutStep huffcode huffsize)
      (lutStep huffcode huffsize lut (m, v))).getD k (0, 0) = _
    by_cases hjm : j = m
    · subst hjm
      rw [lutFold_none huffcode huffsize rest (j + 1) _ k
        (fun i hi1 hi2 => huniq i (by omega)
          (by simp only [List.length_cons]; omega) (by omega))]
      rw [lutStep_getD_of_covers huffcode huffsize lut j v k hcov hk]
      simp
    · have hmj' : m + 1 ≤ j := by omega
      rw [ih (m + 1) _ k j hmj'
        (by simp only [List.length_cons] at hjlt; omega) hcov
        (fun i hi1 hi2 hine => huniq i (by omega)
          (by simp only [List.length_cons]; omega) hine)
        (by rw [lutStep_length]; exact hk)]
      have : j - m = (j - (m + 1)) + 1 := by omega
      rw [this]
      simp

/-- Entry of a constant list at any index and matching default. -/
theorem getD_replicate_self (n k : Nat) (a : Nat × Nat) :
    (List.replicate n a).getD k a = a := by
  induction n generalizing k with
  | zero => simp
  | succ m ih =>
    cases k with
    | zero => simp
    | succ k' => simpa using ih k'

/-- Characterization of `buildLut`: a slot covered by a (then unique)
short-code symbol holds that symbol's `(value, size)`; an uncovered slot
holds `(0, 0)`. -/
theorem buildLut_getD (values huffcode huffsize : List Nat) (k : Nat) :
    ((∀ i, i < values.length → ¬ coversIdx huffcode huffsize i k) →
      (buildLut values huffcode huffsize).getD k (0, 0) = (0, 0)) ∧
    (∀ j, j < values.length → coversIdx huffcode huffsize j k →
      (∀ i, i < values.length → i ≠ j → ¬ coversIdx huffcode huffsize i k) →
      k < 256 →
      (buildLut values huffcode huffsize).getD k (0, 0) =
        (values.getD j 0, huffsize.getD j 0)) := by
  constructor
  · intro hnone
    unfold buildLut
    show ((values.enumFrom 0).foldl (lutStep huffcode huffsize)
      (List.replicate 256 (0, 0))).getD k (0, 0) = (0, 0)
    rw [lutFold_none huffcode huffsize values 0 _ k
      (fun i h1 h2 => hnone i (by omega))]
    exact getD_replicate_self 256 k (0, 0)
  · intro j hj hcov huniq hk
    unfold buildLut
    show ((values.enumFrom 0).foldl (lutStep huffcode huffsize)
      (List.replicate 256 (0, 0))).getD k (0, 0) = _
    rw [lutFold_unique huffcode huffsize values 0 _ k j (by omega)
      (by omega) hcov (fun i h1 h2 => huniq i (by omega))
      (by rw [List.length_replicate]; exact hk)]
    simp

/-! ### `value_offset` / `maxcode` lemmas -/

/-- Length of the offsets/maxcode list. -/
theorem offsetsMaxGo_length (bits : List Nat) :
    ∀ huffcode j, (offsetsMaxGo bits huffcode j).length = bits.length := by
  induction bits with
  | nil => intro huffcode j; rfl
  | cons c rest ih =>
    intro huffcode j
    unfold offsetsMaxGo
    by_cases hc : c ≠ 0
    · rw [if_pos hc]
      simp [ih]
    · rw [if_neg hc]
      simp [ih]

/-- Entry `i` of the offsets/maxcode list: for a populated length slot the
pair `(first_index - first_code, last_code)` over the slot's run of
symbols, else `(0, -1)`. -/
theorem offsetsMaxGo_getD (bits : List Nat) :
    ∀ huffcode j0 i, i < bits.length →
      (offsetsMaxGo bits huffcode j0).getD i (0, -1) =
        if bits.getD i 0 ≠ 0 then
          (((j0 + (bits.take i).sum : Nat) : Int) -
            (huffcode.getD (j0 + (bits.take i).sum) 0 : Int),
            (huffcode.getD (j0 + (bits.take i).sum + bits.getD i 0 - 1) 0 : Int))
        else (0, -1) := by
  induction bits with
  | nil => intro huffcode j0 i hi; simp at hi
  | cons c rest ih =>
    intro huffcode j0 i hi
    cases i with
    | zero =>
      unfold offsetsMaxGo
      by_cases hc : c ≠ 0
      · rw [if_pos hc]
        simp only [List.getD_cons_zero, List.take_zero, List.sum_nil,
          Nat.add_zero]
        rw [if_pos hc]
      · rw [if_neg hc]
        simp only [List.getD_cons_zero, List.take_zero]
        rw [if_neg hc]
    | succ i' =>
      have hi' : i' < rest.length := by simpa using hi
      unfold offsetsMaxGo
      by_cases hc : c ≠ 0
      · rw [if_pos hc]
        simp only [List.getD_cons_succ, List.take_succ_cons, List.sum_cons]
        rw [ih huffcode (j0 + c) i' hi']
        have harr : j0 + c + (rest.take i').sum = j0 + (c + (rest.take i').sum) := by
          omega
        rw [harr]
      · rw [if_neg hc]
        push_neg at hc
        subst hc
        simp only [List.getD_cons_succ, List.take_succ_cons, List.sum_cons,
          Nat.zero_add]
        exact ih huffcode j0 i' hi'

/-! ### Decode-loop helper lemmas -/

/-- Entries of a sorted list compare by position. -/
theorem pairwise_getD_le (l : List Nat) (hp : l.Pairwise (· ≤ ·))
    {a b : Nat} (hab : a ≤ b) (hb : b < l.length) :
    l.getD a 0 ≤ l.getD b 0 := by
  rcases Nat.lt_or_ge a b with h | h
  · rw [List.getD_eq_getElem l 0 (by omega), List.getD_eq_getElem l 0 hb]
    have := List.pairwise_iff_get.mp hp ⟨a, by omega⟩ ⟨b, hb⟩ h
    simpa using this
  · have hba : a = b := by omega
    subst hba
    exact le_rfl

/-- Assembling one more bit: or-ing a fresh low bit onto a shifted code is
addition. -/
theorem or_two_mul_add (a b : Nat) (hb : b < 2) :
    (2 * a) ||| b = 2 * a + b := by
  have hb01 : b = 0 ∨ b = 1 := by omega
  rcases hb01 with h | h <;> subst h
  · simp
  · apply Nat.eq_of_testBit_eq
    intro k
    cases k with
    | zero =>
      rw [Nat.testBit_or]
      simp only [Nat.testBit_zero]
      have h2 : 2 * a % 2 = 0 := by omega
      have h3 : (2 * a + 1) % 2 = 1 := by omega
      simp [h2, h3]
    | succ k' =>
      rw [Nat.testBit_or, Nat.testBit_succ, Nat.testBit_succ,
        Nat.testBit_succ]
      have h2 : 2 * a / 2 = a := by omega
      have h3 : (2 * a + 1) / 2 = a := by omega
      have h4 : (1 : Nat) / 2 = 0 := by norm_num
      rw [h2, h3, h4]
      simp

/-- One step of the bitwise code assembly in `decode`: shifting the top
`i` bits left and or-ing the next bit yields the top `i + 1` bits. -/
theorem code_step (w i : Nat) (hi : i ≤ 31) :
    ((w >>> (32 - i)) <<< 1) ||| bitAt w (31 - i) = w >>> (31 - i) := by
  unfold bitAt
  rw [Nat.and_one_is_mod]
  have hsplit : (32 - i) = (31 - i) + 1 := by omega
  rw [hsplit, Nat.shiftRight_add]
  rw [Nat.shiftLeft_eq, Nat.pow_one, Nat.mul_comm]
  rw [or_two_mul_add _ _ (Nat.mod_lt _ (by norm_num))]
  have := Nat.div_add_mod (w >>> (31 - i)) 2
  rw [Nat.shiftRight_succ_inside]
  omega

/-- Division bound: any number is below the successor multiple of its
divisor. -/
theorem lt_div_succ_mul (a b : Nat) (hb : 0 < b) : a < (a / b + 1) * b := by
  have h1 := Nat.div_add_mod a b
  have h2 := Nat.mod_lt a hb
  have h3 : a < b * (a / b) + b := by omega
  calc a < b * (a / b) + b := h3
  _ = (a / b + 1) * b := by ring

/-- Sum of a prefix of the counts grows by the next count. -/
theorem take_sum_succ (l : List Nat) (i : Nat) (hi : i < l.length) :
    (l.take (i + 1)).sum = (l.take i).sum + l.getD i 0 := by
  rw [List.take_succ, List.sum_append]
  rw [List.getElem?_eq_getElem hi]
  simp [List.getD_eq_getElem?_getD, List.getElem?_eq_getElem hi]

/-- Prefix sums are bounded by the total. -/
theorem take_sum_le (l : List Nat) (i : Nat) : (l.take i).sum ≤ l.sum := by
  conv_rhs => rw [← List.take_append_drop i l]
  rw [List.sum_append]
  omega

set_option maxHeartbeats 2000000 in
/-- Claim C4: for every length histogram `counts[1..=16]` with `1 ≤ Σ
counts ≤ 256` that admits a valid canonical code assignment (no code of
length `l` exceeding `2^l - 1`, formalized as the equivalent Kraft
condition `kraftOk`), `HuffmanTable::new` succeeds (via
`derive_huffman_codes`), and for every symbol the table was built from,
`HuffmanDecoder::decode` on a bit buffer whose top bits are that symbol's
canonical code returns that symbol's value. -/
theorem huffman_roundtrip (bits values : List Nat) (cls : HuffmanTableClass)
    (hblen : bits.length = 16) (hsum1 : 1 ≤ bits.sum) (hsum : bits.sum ≤ 256)
    (hkraft : kraftOk bits) (hvlen : values.length = bits.sum) :
    ∃ codes t,
      derive_huffman_codes bits = some (codes, huffsizeOf bits) ∧
      HuffmanTable.new bits values cls = some t ∧
      ∀ j, j < values.length → ∀ w, w < 2 ^ 32 →
        w >>> (32 - (huffsizeOf bits).getD j 0) = codes.getD j 0 →
        decodeHuff t w = some (values.getD j 0) := by
  have hslen : (huffsizeOf bits).length = bits.sum := sizesFrom_length bits 1
  have hpair : (huffsizeOf bits).Pairwise (· ≤ ·) := sizesFrom_pairwise bits 1
  have hmem : ∀ v ∈ huffsizeOf bits, 1 ≤ v ∧ v ≤ 16 := by
    intro v hv
    have := sizesFrom_mem_bounds bits 1 v hv
    omega
  have hhead_le : ∀ v ∈ huffsizeOf bits, (huffsizeOf bits).headD 0 ≤ v := by
    intro v hv
    rcases hl : huffsizeOf bits with _ | ⟨h0, t0⟩
    · rw [hl] at hv
      simp at hv
    · rw [hl] at hv hpair
      simp only [hl, List.headD_cons]
      rcases List.mem_cons.mp hv with rfl | hvt
      · exact le_rfl
      · exact (List.pairwise_cons.mp hpair).1 v hvt
  have hhead16 : (huffsizeOf bits).headD 0 ≤ 16 := by
    rcases hl : huffsizeOf bits with _ | ⟨h0, t0⟩
    · simp
    · have hm : h0 ∈ huffsizeOf bits := by
        rw [hl]
        simp
      have := (hmem h0 hm).2
      simp only [hl, List.headD_cons]
      exact this
  obtain ⟨codes, hbc, hclen, hchar0⟩ := buildCodes_spec (huffsizeOf bits) 0
    ((huffsizeOf bits).headD 0) hpair hhead_le (fun v hv => (hmem v hv).2)
    hhead16 (by rw [Nat.zero_mul, Nat.zero_add]; exact hkraft)
  have hchar : ∀ k, k < (huffsizeOf bits).length →
      codes.getD k 0 * 2 ^ (16 - (huffsizeOf bits).getD k 0) =
        codeMass ((huffsizeOf bits).take k) ∧
      codes.getD k 0 < 2 ^ ((huffsizeOf bits).getD k 0) := by
    intro k hk
    have := hchar0 k hk
    rwa [Nat.zero_mul, Nat.zero_add] at this
  have hderive : derive_huffman_codes bits = some (codes, huffsizeOf bits) := by
    show (match buildCodes (huffsizeOf bits) 0 ((huffsizeOf bits).headD 0) with
      | some cs => some (cs, huffsizeOf bits)
      | none => none) = some (codes, huffsizeOf bits)
    rw [hbc]
  set TBL : HuffmanTable :=
    { values := values
      value_offset := (offsetsMaxGo bits codes 0).map Prod.fst
      maxcode := (offsetsMaxGo bits codes 0).map Prod.snd
      lut := buildLut values codes (huffsizeOf bits)
      fast_ac :=
        match cls with
        | .AC => some (buildFastAc (buildLut values codes (huffsizeOf bits)))
        | .DC => none } with hTBL
  have hnew : HuffmanTable.new bits values cls = some TBL := by
    unfold HuffmanTable.new
    rw [hderive]
  refine ⟨codes, TBL, hderive, hnew, ?_⟩
  intro j hj w hw hcode
  have hjn : j < (huffsizeOf bits).length := by omega
  obtain ⟨hcm, hclt⟩ := hchar j hjn
  have hsmem : (huffsizeOf bits).getD j 0 ∈ huffsizeOf bits := by
    rw [List.getD_eq_getElem _ 0 hjn]
    exact List.getElem_mem hjn
  have hs1 : 1 ≤ (huffsizeOf bits).getD j 0 := (hmem _ hsmem).1
  have hs16 : (huffsizeOf bits).getD j 0 ≤ 16 := (hmem _ hsmem).2
  set s := (huffsizeOf bits).getD j 0 with hs_def
  set c := codes.getD j 0 with hc_def
  -- the top 16 bits of the buffer and the symbol's mass interval
  have hT16lt : w >>> 16 < 2 ^ 16 := by
    rw [Nat.shiftRight_eq_div_pow]
    rw [Nat.div_lt_iff_lt_mul (by norm_num)]
    calc w < 2 ^ 32 := hw
    _ = 2 ^ 16 * 2 ^ 16 := by norm_num
  have hdiv : (w >>> 16) / 2 ^ (16 - s) = c := by
    rw [← Nat.shiftRight_eq_div_pow, ← Nat.shiftRight_add]
    have h1632 : 16 + (16 - s) = 32 - s := by omega
    rw [h1632]
    exact hcode
  have hpow_pos : ∀ m : Nat, 0 < 2 ^ m := fun m => Nat.pos_pow_of_pos _ (by norm_num)
  have hdlo : c * 2 ^ (16 - s) ≤ w >>> 16 := by
    rw [← hdiv]
    exact Nat.div_mul_le_self _ _
  have hdhi : w >>> 16 < (c + 1) * 2 ^ (16 - s) := by
    rw [← hdiv]
    exact lt_div_succ_mul _ _ (hpow_pos _)
  have hTlo : codeMass ((huffsizeOf bits).take j) ≤ w >>> 16 := by
    rw [← hcm]
    exact hdlo
  have hThi : w >>> 16 < codeMass ((huffsizeOf bits).take (j + 1)) := by
    have hstep := codeMass_take_succ (huffsizeOf bits) j hjn
    rw [← hs_def] at hstep
    have hx : (c + 1) * 2 ^ (16 - s) = c * 2 ^ (16 - s) + 2 ^ (16 - s) := by
      ring
    rw [hstep, ← hcm]
    omega
  have hinterval_unique : ∀ i, i < (huffsizeOf bits).length →
      codeMass ((huffsizeOf bits).take i) ≤ w >>> 16 →
      w >>> 16 < codeMass ((huffsizeOf bits).take (i + 1)) → i = j := by
    intro i hi hilo hihi
    rcases Nat.lt_trichotomy i j with h | h | h
    · exfalso
      have := codeMass_take_mono (huffsizeOf bits) (show i + 1 ≤ j by omega)
      omega
    · exact h
    · exfalso
      have := codeMass_take_mono (huffsizeOf bits) (show j + 1 ≤ i by omega)
      omega
  have hstart : ∀ i, i < (huffsizeOf bits).length →
      (huffsizeOf bits).getD i 0 ≤ 8 →
      lutStart codes (huffsizeOf bits) i =
        codes.getD i 0 * 2 ^ (8 - (huffsizeOf bits).getD i 0) := by
    intro i hi hi8
    obtain ⟨-, hilt⟩ := hchar i hi
    unfold lutStart
    rw [Nat.shiftLeft_eq, Nat.mod_eq_of_lt]
    calc codes.getD i 0 * 2 ^ (8 - (huffsizeOf bits).getD i 0)
        < 2 ^ ((huffsizeOf bits).getD i 0) *
          2 ^ (8 - (huffsizeOf bits).getD i 0) :=
        Nat.mul_lt_mul_of_lt_of_le hilt le_rfl (hpow_pos _)
    _ = 2 ^ 8 := by
        rw [← pow_add]
        congr 1
        omega
    _ < 2 ^ 16 := by norm_num
  set idx := w >>> 24 with hidx_def
  have hidx8 : idx = (w >>> 16) / 2 ^ 8 := by
    rw [hidx_def, ← Nat.shiftRight_eq_div_pow, ← Nat.shiftRight_add]
  have hidxlt : idx < 2 ^ 8 := by
    rw [hidx8]
    rw [Nat.div_lt_iff_lt_mul (by norm_num)]
    calc w >>> 16 < 2 ^ 16 := hT16lt
    _ = 2 ^ 8 * 2 ^ 8 := by norm_num
  have hcov_interval : ∀ i, i < (huffsizeOf bits).length →
      (coversIdx codes (huffsizeOf bits) i idx ↔
        ((huffsizeOf bits).getD i 0 ≤ 8 ∧
          codeMass ((huffsizeOf bits).take i) ≤ w >>> 16 ∧
          w >>> 16 < codeMass ((huffsizeOf bits).take (i + 1)))) := by
    intro i hi
    obtain ⟨him, hilt⟩ := hchar i hi
    have hmassi1 : codeMass ((huffsizeOf bits).take (i + 1)) =
        codes.getD i 0 * 2 ^ (16 - (huffsizeOf bits).getD i 0) +
          2 ^ (16 - (huffsizeOf bits).getD i 0) := by
      rw [codeMass_take_succ _ i hi, him]
    have heq8 : ∀ x : Nat, x * 2 ^ (8 - (huffsizeOf bits).getD i 0) * 2 ^ 8 =
        x * 2 ^ (16 - (huffsizeOf bits).getD i 0) ∨
        ¬ ((huffsizeOf bits).getD i 0 ≤ 8) := by
      intro x
      by_cases h8 : (huffsizeOf bits).getD i 0 ≤ 8
      · left
        rw [Nat.mul_assoc, ← pow_add]
        congr 2
        omega
      · right
        exact h8
    constructor
    · rintro ⟨h8, hlo, hhi⟩
      rw [hstart i hi h8] at hlo hhi
      rcases heq8 (codes.getD i 0) with heqc | hc
      · refine ⟨h8, ?_, ?_⟩
        · rw [← him]
          have h1 : codes.getD i 0 * 2 ^ (8 - (huffsizeOf bits).getD i 0) *
              2 ^ 8 ≤ idx * 2 ^ 8 := Nat.mul_le_mul_right _ hlo
          have h2 : idx * 2 ^ 8 ≤ w >>> 16 := by
            rw [hidx8]
            exact Nat.div_mul_le_self _ _
          omega
        · rw [hmassi1]
          have h1 : idx + 1 ≤ codes.getD i 0 *
              2 ^ (8 - (huffsizeOf bits).getD i 0) +
              2 ^ (8 - (huffsizeOf bits).getD i 0) := hhi
          have h2 : w >>> 16 < (idx + 1) * 2 ^ 8 := by
            rw [hidx8]
            exact lt_div_succ_mul _ _ (by norm_num)
          have h3 : (idx + 1) * 2 ^ 8 ≤
              (codes.getD i 0 * 2 ^ (8 - (huffsizeOf bits).getD i 0) +
                2 ^ (8 - (huffsizeOf bits).getD i 0)) * 2 ^ 8 :=
            Nat.mul_le_mul_right _ h1
          have heq1 : (1 : Nat) * 2 ^ (8 - (huffsizeOf bits).getD i 0) *
              2 ^ 8 = 1 * 2 ^ (16 - (huffsizeOf bits).getD i 0) := by
            rcases heq8 1 with h | h
            · exact h
            · exact absurd h8 h
          rw [Nat.add_mul] at h3
          rw [Nat.one_mul, Nat.one_mul] at heq1
          omega
      · exact absurd h8 hc
    · rintro ⟨h8, hlo, hhi⟩
      rw [← him] at hlo
      rw [hmassi1] at hhi
      rcases heq8 (codes.getD i 0) with heqc | hc
      · have heq1 : (1 : Nat) * 2 ^ (8 - (huffsizeOf bits).getD i 0) *
            2 ^ 8 = 1 * 2 ^ (16 - (huffsizeOf bits).getD i 0) := by
          rcases heq8 1 with h | h
          · exact h
          · exact absurd h8 h
        rw [Nat.one_mul, Nat.one_mul] at heq1
        refine ⟨h8, ?_, ?_⟩
        · rw [hstart i hi h8, hidx8]
          rw [Nat.le_div_iff_mul_le (by norm_num)]
          omega
        · rw [hstart i hi h8, hidx8]
          rw [Nat.div_lt_iff_lt_mul (by norm_num)]
          rw [Nat.add_mul]
          omega
      · exact absurd h8 hc
  have hTvals : TBL.values = values := by rw [hTBL]
  have hTlut : TBL.lut = buildLut values codes (huffsizeOf bits) := by rw [hTBL]
  have hTmax : TBL.maxcode = (offsetsMaxGo bits codes 0).map Prod.snd := by
    rw [hTBL]
  have hTvoff : TBL.value_offset = (offsetsMaxGo bits codes 0).map Prod.fst := by
    rw [hTBL]
  have hmaxlen : (offsetsMaxGo bits codes 0).length = bits.length :=
    offsetsMaxGo_length bits codes 0
  have hmaxgetD : ∀ i, ((offsetsMaxGo bits codes 0).map Prod.snd).getD i (-1) =
      ((offsetsMaxGo bits codes 0).getD i (0, -1)).2 := by
    intro i
    exact List.getD_map (offsetsMaxGo bits codes 0) ((0 : Int), (-1 : Int))
      Prod.snd
  have hvoffgetD : ∀ i, ((offsetsMaxGo bits codes 0).map Prod.fst).getD i 0 =
      ((offsetsMaxGo bits codes 0).getD i (0, -1)).1 := by
    intro i
    exact List.getD_map (offsetsMaxGo bits codes 0) ((0 : Int), (-1 : Int))
      Prod.fst
  have hmax_char : ∀ i, i < 16 → (offsetsMaxGo bits codes 0).getD i (0, -1) =
      if bits.getD i 0 ≠ 0 then
        (((bits.take i).sum : Int) - (codes.getD ((bits.take i).sum) 0 : Int),
          (codes.getD ((bits.take i).sum + bits.getD i 0 - 1) 0 : Int))
      else (0, -1) := by
    intro i hi
    have := offsetsMaxGo_getD bits codes 0 i (by omega)
    simpa using this
  have hand : (w >>> (32 - 8)) &&& (2 ^ 8 - 1) = idx := by
    have h248 : (32 - 8 : Nat) = 24 := by norm_num
    rw [h248, Nat.and_pow_two_sub_one_eq_mod, ← hidx_def,
      Nat.mod_eq_of_lt hidxlt]
  by_cases hs8 : s ≤ 8
  · -- short code: the 8-bit LUT hits
    have hlut := (buildLut_getD values codes (huffsizeOf bits) idx).2 j hj
      ((hcov_interval j hjn).mpr ⟨hs8, hTlo, hThi⟩)
      (fun i hi hine hcov => by
        have hint := (hcov_interval i (by omega)).mp hcov
        exact hine (hinterval_unique i (by omega) hint.2.1 hint.2.2))
      (by omega)
    unfold decodeHuff
    rw [hTlut, hand]
    dsimp only
    rw [hlut]
    dsimp only
    rw [if_pos (by omega : 0 < s)]
  · -- long code: the LUT misses and the bitwise loop runs
    push_neg at hs8
    have hlut0 := (buildLut_getD values codes (huffsizeOf bits) idx).1
      (fun i hi hcov => by
        have hint := (hcov_interval i (by omega)).mp hcov
        have := hinterval_unique i (by omega) hint.2.1 hint.2.2
        subst this
        omega)
    -- decomposition of j into its length run
    obtain ⟨ii, r, hii, hr, hdecomp⟩ := sizesFrom_pos_decomp bits j (by omega)
    have hsii : s = 1 + ii := by
      rw [hs_def, hdecomp]
      exact sizesFrom_getD bits 1 ii r hii hr
    have hprefn : (bits.take ii).sum + bits.getD ii 0 ≤ bits.sum := by
      have h1 := take_sum_succ bits ii hii
      have h2 := take_sum_le bits (ii + 1)
      omega
    -- sizes within the run are all s
    have hrunsz : ∀ r', r' < bits.getD ii 0 →
        (huffsizeOf bits).getD ((bits.take ii).sum + r') 0 = s := by
      intro r' hr'
      rw [hsii]
      exact sizesFrom_getD bits 1 ii r' hii hr'
    -- masses along the run
    have hrun : ∀ r', r' ≤ r →
        codeMass ((huffsizeOf bits).take ((bits.take ii).sum + r')) =
          codeMass ((huffsizeOf bits).take ((bits.take ii).sum)) +
            r' * 2 ^ (16 - s) := by
      intro r'
      induction r' with
      | zero => intro _; simp
      | succ rr ih =>
        intro hrr
        have hix : (bits.take ii).sum + rr < (huffsizeOf bits).length := by
          omega
        rw [← Nat.add_assoc, codeMass_take_succ _ _ hix, ih (by omega),
          hrunsz rr (by omega)]
        ring
    -- the first symbol of the run
    have hpref_lt : (bits.take ii).sum < (huffsizeOf bits).length := by omega
    obtain ⟨hcf_m, hcf_lt⟩ := hchar ((bits.take ii).sum) hpref_lt
    have hszpref : (huffsizeOf bits).getD ((bits.take ii).sum) 0 = s := by
      have := hrunsz 0 (by omega)
      simpa using this
    rw [hszpref] at hcf_m
    have hceq : c = codes.getD ((bits.take ii).sum) 0 + r := by
      have hmassj : c * 2 ^ (16 - s) =
          codeMass ((huffsizeOf bits).take ((bits.take ii).sum)) +
            r * 2 ^ (16 - s) := by
        rw [hcm, hdecomp]
        exact hrun r le_rfl
      have hfact : c * 2 ^ (16 - s) =
          (codes.getD ((bits.take ii).sum) 0 + r) * 2 ^ (16 - s) := by
        rw [hmassj, ← hcf_m, Nat.add_mul]
      exact Nat.eq_of_mul_eq_mul_right (hpow_pos _) hfact
    have hbzii : bits.getD ii 0 ≠ 0 := by omega
    -- comparisons before the matching length fail
    have hfail : ∀ i, i + 1 < s →
        ¬ ((w >>> (31 - i) : Int) ≤
          ((offsetsMaxGo bits codes 0).map Prod.snd).getD i (-1)) := by
      intro i hi1
      have hi16 : i < 16 := by omega
      rw [hmaxgetD i, hmax_char i hi16]
      by_cases hbz : bits.getD i 0 ≠ 0
      · rw [if_pos hbz]
        dsimp only
        have hjl_lt : (bits.take i).sum + bits.getD i 0 - 1 <
            (huffsizeOf bits).length := by
          have h1 := take_sum_succ bits i (by omega)
          have h2 := take_sum_le bits (i + 1)
          omega
        have hsjl : (huffsizeOf bits).getD
            ((bits.take i).sum + bits.getD i 0 - 1) 0 = 1 + i := by
          have harr : (bits.take i).sum + bits.getD i 0 - 1 =
              (bits.take i).sum + (bits.getD i 0 - 1) := by omega
          rw [harr]
          exact sizesFrom_getD bits 1 i (bits.getD i 0 - 1) (by omega)
            (by omega)
        obtain ⟨hml, hmlt⟩ := hchar _ hjl_lt
        have hjlj : (bits.take i).sum + bits.getD i 0 - 1 < j := by
          by_contra hge
          push_neg at hge
          have hle := pairwise_getD_le (huffsizeOf bits) hpair hge hjl_lt
          rw [hsjl, ← hs_def] at hle
          omega
        have hstep : codeMass ((huffsizeOf bits).take
            ((bits.take i).sum + bits.getD i 0 - 1 + 1)) =
            codeMass ((huffsizeOf bits).take
              ((bits.take i).sum + bits.getD i 0 - 1)) + 2 ^ (15 - i) := by
          rw [codeMass_take_succ _ _ hjl_lt, hsjl]
          congr 2
          omega
        have hmono := codeMass_take_mono (huffsizeOf bits)
          (show (bits.take i).sum + bits.getD i 0 - 1 + 1 ≤ j by omega)
        have hml15 : codes.getD ((bits.take i).sum + bits.getD i 0 - 1) 0 *
            2 ^ (15 - i) = codeMass ((huffsizeOf bits).take
              ((bits.take i).sum + bits.getD i 0 - 1)) := by
          rw [← hml, hsjl]
          congr 2
          omega
        have hcl : (codes.getD ((bits.take i).sum + bits.getD i 0 - 1) 0 + 1) *
            2 ^ (15 - i) ≤ w >>> 16 := by
          rw [Nat.add_mul, Nat.one_mul, hml15]
          omega
        have hple : codes.getD ((bits.take i).sum + bits.getD i 0 - 1) 0 + 1 ≤
            w >>> (31 - i) := by
          have hp : w >>> (31 - i) = (w >>> 16) / 2 ^ (15 - i) := by
            rw [← Nat.shiftRight_eq_div_pow, ← Nat.shiftRight_add]
            congr 1
            omega
          rw [hp, Nat.le_div_iff_mul_le (hpow_pos _)]
          exact hcl
        intro hcon
        have hcon2 : (w >>> (31 - i) : Int) ≤
            (codes.getD ((bits.take i).sum + bits.getD i 0 - 1) 0 : Int) := hcon
        have := hple
        omega
      · rw [if_neg hbz]
        dsimp only
        intro hcon
        have h0 : (0 : Int) ≤ (w >>> (31 - i) : Int) := Int.ofNat_nonneg _
        omega
    -- the matching comparison succeeds and selects the right value
    have hii_eq : ii = s - 1 := by omega
    have hsucc : decodeSlowGo TBL w (s - 1)
        ((w >>> (32 - (s - 1))) <<< 1) = some (values.getD j 0) := by
      rw [decodeSlowGo, dif_pos (show s - 1 < 16 by omega)]
      have h31 : 31 - (s - 1) = 32 - s := by omega
      rw [code_step w (s - 1) (by omega), h31, hcode]
      rw [hTmax, hmaxgetD (s - 1), hmax_char (s - 1) (by omega), ← hii_eq,
        if_pos hbzii]
      dsimp only
      -- c ≤ maxcode (the last code of the run)
      have hjL_lt : (bits.take ii).sum + bits.getD ii 0 - 1 <
          (huffsizeOf bits).length := by omega
      have hsjL : (huffsizeOf bits).getD
          ((bits.take ii).sum + bits.getD ii 0 - 1) 0 = s := by
        have harr : (bits.take ii).sum + bits.getD ii 0 - 1 =
            (bits.take ii).sum + (bits.getD ii 0 - 1) := by omega
        rw [harr]
        exact hrunsz (bits.getD ii 0 - 1) (by omega)
      obtain ⟨hmL, hmLlt⟩ := hchar _ hjL_lt
      have hcleL : c ≤ codes.getD ((bits.take ii).sum + bits.getD ii 0 - 1) 0 := by
        have hmono := codeMass_take_mono (huffsizeOf bits)
          (show j ≤ (bits.take ii).sum + bits.getD ii 0 - 1 by omega)
        rw [← hcm, ← hmL, hsjL] at hmono
        exact Nat.le_of_mul_le_mul_right hmono (hpow_pos _)
      rw [if_pos (by exact_mod_cast hcleL)]
      rw [hvoffgetD ii, hmax_char ii (by omega), if_pos hbzii]
      dsimp only
      have hidxj : (c : Int) + (((bits.take ii).sum : Int) -
          (codes.getD ((bits.take ii).sum) 0 : Int)) = (j : Int) := by
        rw [hceq]
        push_cast
        rw [hdecomp]
        push_cast
        ring
      rw [hidxj]
      rw [if_pos ⟨by positivity, by simpa using hj⟩]
      simp
    -- the loop walks from bit 1 to the matching length
    have hloop : ∀ d i, i + d + 1 = s →
        decodeSlowGo TBL w i ((w >>> (32 - i)) <<< 1) =
          some (values.getD j 0) := by
      intro d
      induction d with
      | zero =>
        intro i hi
        have hieq : i = s - 1 := by omega
        subst hieq
        exact hsucc
      | succ dd ih =>
        intro i hi
        rw [decodeSlowGo, dif_pos (show i < 16 by omega)]
        rw [code_step w i (by omega)]
        rw [hTmax]
        rw [if_neg (hfail i (by omega))]
        have harg : (w >>> (31 - i)) <<< 1 = (w >>> (32 - (i + 1))) <<< 1 := by
          congr 2
          omega
        rw [harg]
        exact ih (i + 1) (by omega)
    unfold decodeHuff
    rw [hTlut, hand]
    dsimp only
    rw [hlut0]
    dsimp only
    rw [if_neg (by norm_num)]
    have hw32 : w >>> 32 = 0 := by
      rw [Nat.shiftRight_eq_div_pow]
      exact Nat.div_eq_of_lt hw
    have hinit := hloop (s - 1) 0 (by omega)
    rw [Nat.sub_zero, hw32, Nat.zero_shiftLeft] at hinit
    exact hinit

/-- Witness for `huffman_roundtrip`: the histogram with two codes of
length 1 (codes 0 and 1) and values 7 and 9; decoding a buffer whose top
bit is 1 yields the second value. -/
theorem huffman_roundtrip_witness :
    ∃ codes t,
      derive_huffman_codes [2, 0, 0, 0, 0, 0, 0, 0, 0, 0, 0, 0, 0, 0, 0, 0] =
        some (codes, huffsizeOf [2, 0, 0, 0, 0, 0, 0, 0, 0, 0, 0, 0, 0, 0, 0, 0]) ∧
      HuffmanTable.new [2, 0, 0, 0, 0, 0, 0, 0, 0, 0, 0, 0, 0, 0, 0, 0] [7, 9]
        HuffmanTableClass.DC = some t ∧
      ∀ j, j < ([7, 9] : List Nat).length → ∀ w, w < 2 ^ 32 →
        w >>> (32 - (huffsizeOf
            [2, 0, 0, 0, 0, 0, 0, 0, 0, 0, 0, 0, 0, 0, 0, 0]).getD j 0) =
          codes.getD j 0 →
        decodeHuff t w = some (([7, 9] : List Nat).getD j 0) :=
  huffman_roundtrip [2, 0, 0, 0, 0, 0, 0, 0, 0, 0, 0, 0, 0, 0, 0, 0] [7, 9]
    HuffmanTableClass.DC (by decide) (by decide) (by decide) (by decide)
    (by decide)

/-- `getD` of the `a.or(b)` zip at an index below both lengths. -/
theorem zipWith_or_getD (l₁ l₂ : List (Option HuffmanTable)) (i : Nat)
    (h₁ : i < l₁.length) (h₂ : i < l₂.length) :
    (List.zipWith (fun a b => a.or b) l₁ l₂).getD i none =
      (l₁.getD i none).or (l₂.getD i none) := by
  induction l₁ generalizing l₂ i with
  | nil => simp at h₁
  | cons a t ih =>
    cases l₂ with
    | nil => simp at h₂
    | cons b t₂ =>
      cases i with
      | zero => simp
      | succ j =>
        simp only [List.zipWith_cons_cons, List.getD_cons_succ]
        exact ih t₂ j (by simpa using h₁) (by simpa using h₂)

/-- A successful `parseDhtGo` run returns slot arrays of the same lengths
as the accumulators it started from (slots are only ever `set`). -/
theorem parseDhtGo_lengths :
    ∀ (length : Nat) (bytes : List Nat)
      (dc ac : List (Option HuffmanTable)) (b : Option Bool) out,
      parseDhtGo bytes length dc ac b = some out →
      out.1.1.length = dc.length ∧ out.1.2.length = ac.length := by
  intro length
  induction length using Nat.strong_induction_on with
  | _ length ih =>
    intro bytes dc ac b out hp
    rw [parseDhtGo] at hp
    split at hp
    case isTrue h17 =>
      split at hp
      · exact Option.noConfusion hp
      case h_2 byte bytes₁ hb =>
        split at hp
        · exact Option.noConfusion hp
        split at hp
        · exact Option.noConfusion hp
        split at hp
        · exact Option.noConfusion hp
        case h_2 counts bytes₂ hc =>
          split at hp
          · exact Option.noConfusion hp
          split at hp
          · exact Option.noConfusion hp
          split at hp
          · exact Option.noConfusion hp
          split at hp
          · exact Option.noConfusion hp
          case h_2 values bytes₃ hv =>
            split at hp
            case h_1 =>
              split at hp
              · exact Option.noConfusion hp
              case h_2 table ht =>
                have := ih (length - (17 + counts.sum)) (by omega) bytes₃
                  (dc.set (byte &&& 0x0f) (some table)) ac b out hp
                simpa using this
            case h_2 =>
              split at hp
              · exact Option.noConfusion hp
              case h_2 table ht =>
                have := ih (length - (17 + counts.sum)) (by omega) bytes₃
                  dc (ac.set (byte &&& 0x0f) (some table)) b out hp
                simpa using this
            case h_3 => exact Option.noConfusion hp
    case isFalse h17 =>
      split at hp
      · cases hp
        exact ⟨rfl, rfl⟩
      · exact Option.noConfusion hp

/-- **C8.** Processing a DHT marker segment replaces only the
Huffman-table slots (class, destination index) that the segment defines:
after the decoder merges the parsed arrays into its current DC and AC
arrays with `a.or(b)`, every slot the segment defined holds the new
table, and every other slot holds the same table as before. -/
theorem dht_slot_replacement (bytes : List Nat) (b : Option Bool)
    (dcOld acOld dcNew acNew : List (Option HuffmanTable)) (rest : List Nat)
    (hdc : dcOld.length = 4) (hac : acOld.length = 4)
    (hp : parse_dht bytes b = some ((dcNew, acNew), rest)) :
    ∀ i, i < 4 →
      (∀ t, dcNew.getD i none = some t →
        (applyDhtTables dcNew dcOld).getD i none = some t) ∧
      (dcNew.getD i none = none →
        (applyDhtTables dcNew dcOld).getD i none = dcOld.getD i none) ∧
      (∀ t, acNew.getD i none = some t →
        (applyDhtTables acNew acOld).getD i none = some t) ∧
      (acNew.getD i none = none →
        (applyDhtTables acNew acOld).getD i none = acOld.getD i none) := by
  unfold parse_dht at hp
  have hlen : dcNew.length = 4 ∧ acNew.length = 4 := by
    split at hp
    · exact Option.noConfusion hp
    case h_2 length rest₀ hr =>
      have := parseDhtGo_lengths length rest₀ (List.replicate 4 none)
        (List.replicate 4 none) b ((dcNew, acNew), rest) hp
      simpa using this
  intro i hi
  have hzd := zipWith_or_getD dcNew dcOld i (by omega) (by omega)
  have hza := zipWith_or_getD acNew acOld i (by omega) (by omega)
  refine ⟨fun t ht => ?_, fun ht => ?_, fun t ht => ?_, fun ht => ?_⟩
  · rw [applyDhtTables, hzd, ht]; rfl
  · rw [applyDhtTables, hzd, ht]; rfl
  · rw [applyDhtTables, hza, ht]; rfl
  · rw [applyDhtTables, hza, ht]; rfl

set_option maxRecDepth 8192 in
/-- Witness for `dht_slot_replacement`: parsing `dhtWitnessBytes` over
empty current tables defines exactly slot DC 0; after the merge, slot
DC 0 holds the new table and slot DC 1 keeps its old entry. -/
theorem dht_slot_replacement_witness :
    (applyDhtTables ((List.replicate 4 none).set 0 (some dhtWitnessTable))
        (List.replicate 4 (none : Option HuffmanTable))).getD 0 none =
      some dhtWitnessTable ∧
    (applyDhtTables ((List.replicate 4 none).set 0 (some dhtWitnessTable))
        (List.replicate 4 (none : Option HuffmanTable))).getD 1 none =
      (List.replicate 4 (none : Option HuffmanTable)).getD 1 none := by
  have hstep1 : parse_dht dhtWitnessBytes none =
      parseDhtGo [0, 1, 0, 0, 0, 0, 0, 0, 0, 0, 0, 0, 0, 0, 0, 0, 0, 42] 18
        (List.replicate 4 none) (List.replicate 4 none) none := rfl
  have hstep2 :
      parseDhtGo [0, 1, 0, 0, 0, 0, 0, 0, 0, 0, 0, 0, 0, 0, 0, 0, 0, 42] 18
        (List.replicate 4 none) (List.replicate 4 none) none =
      parseDhtGo [] 0 ((List.replicate 4 none).set 0 (some dhtWitnessTable))
        (List.replicate 4 none) none := by
    conv_lhs => rw [parseDhtGo]
    rfl
  have hstep3 : parseDhtGo [] 0
        ((List.replicate 4 none).set 0 (some dhtWitnessTable))
        (List.replicate 4 none) none =
      some (((List.replicate 4 none).set 0 (some dhtWitnessTable),
        List.replicate 4 none), []) := by
    conv_lhs => rw [parseDhtGo]
    rfl
  have h := dht_slot_replacement dhtWitnessBytes none
    (List.replicate 4 none) (List.replicate 4 none)
    ((List.replicate 4 none).set 0 (some dhtWitnessTable))
    (List.replicate 4 none) [] (by decide) (by decide)
    (hstep1.trans (hstep2.trans hstep3))
  exact ⟨(h 0 (by decide)).1 dhtWitnessTable (by decide),
    (h 1 (by decide)).2.1 (by decide)⟩

/-- `resize` forces the length. -/
theorem resizeList_length (l : List Nat) (n : Nat) :
    (resizeList l n).length = n := by
  unfold resizeList
  simp [List.length_take, List.length_replicate]
  omega

/-- Joining `n` rows of constant length `c` gives `n * c` entries. -/
theorem length_join_const (n c : Nat) (f : Nat → List Nat)
    (hf : ∀ r, (f r).length = c) :
    ((List.range n).map f).flatten.length = n * c := by
  induction n with
  | zero => simp
  | succ m ih =>
    rw [List.range_succ, List.map_append, List.flatten_append,
      List.length_append, ih]
    simp [hf, Nat.succ_mul]

/-- Two native-endian bytes per `u16` sample. -/
theorem join_pairs_length (data : List Nat) :
    ((data.map (fun x => [x % 256, x / 256 % 256])).flatten).length =
      2 * data.length := by
  induction data with
  | nil => rfl
  | cons a t ih =>
    simp only [List.map_cons, List.flatten_cons, List.length_append,
      List.length_cons, List.length_nil, ih]
    omega

/-- Length characterization of `convert_to_u8`. -/
theorem convert_to_u8_length (frame : LosslessFrame) (data : List Nat) :
    (convert_to_u8 frame data).length =
      (if frame.precision = 8 then 1 else 2) * data.length := by
  unfold convert_to_u8
  split
  · simp
  · rw [join_pairs_length]

/-- Length characterization of `compute_image_parallel`. -/
theorem compute_image_parallel_length (comps : List Component)
    (data : List (List Nat)) (osize : Dimensions) (ct : ColorTransform)
    (out : List Nat)
    (h : compute_image_parallel comps data osize ct = some out) :
    out.length = osize.height * (osize.width * comps.length) := by
  unfold compute_image_parallel at h
  split at h
  · exact Option.noConfusion h
  · split at h
    · cases h
      exact length_join_const _ _ _ (fun r => by
        simp [upsampleInterleaveRow])
    · exact Option.noConfusion h

/-- Length characterization of `compute_image`. -/
theorem compute_image_length (comps : List Component)
    (data : List (List Nat)) (osize : Dimensions) (ct : ColorTransform)
    (out : List Nat) (h : compute_image comps data osize ct = some out) :
    out.length = if comps.length = 1
      then (comps.headD ⟨⟨0, 0⟩, ⟨0, 0⟩, 0, 1, 1⟩).size.width *
        (comps.headD ⟨⟨0, 0⟩, ⟨0, 0⟩, 0, 1, 1⟩).size.height
      else osize.height * (osize.width * comps.length) := by
  unfold compute_image at h
  split at h
  · exact Option.noConfusion h
  · split at h
    next hc =>
      cases h
      rw [if_pos hc, resizeList_length]
    next hc =>
      rw [if_neg hc]
      exact compute_image_parallel_length comps data osize ct out h

/-- Length characterization of `compute_image_lossless`. -/
theorem compute_image_lossless_length (frame : LosslessFrame)
    (data : List (List Nat)) (out : List Nat)
    (h : compute_image_lossless frame data = some out) :
    out.length = (if frame.precision = 8 then 1 else 2) *
      (if frame.components = 1 then (data.headD []).length
       else frame.output_size.width * frame.output_size.height *
         frame.components) := by
  unfold compute_image_lossless at h
  split at h
  · exact Option.noConfusion h
  · split at h
    next hc =>
      cases h
      rw [if_pos hc, convert_to_u8_length]
    next hc =>
      cases h
      rw [if_neg hc, convert_to_u8_length]
      congr 1
      exact length_join_const _ _ _ (fun r => by simp)

/-- Inversion of the pixel-format selection for one component. -/
theorem pixelFormatFor_one (p : Nat) (fmt : PixelFormat)
    (h : pixelFormatFor 1 p = some fmt) :
    (2 ≤ p ∧ p ≤ 8 ∧ fmt = PixelFormat.L8) ∨
    (9 ≤ p ∧ p ≤ 16 ∧ fmt = PixelFormat.L16) := by
  have h' : (if 2 ≤ p ∧ p ≤ 8 then some PixelFormat.L8
      else if 9 ≤ p ∧ p ≤ 16 then some PixelFormat.L16 else none) =
      some fmt := h
  split at h'
  next h1 => exact Or.inl ⟨h1.1, h1.2, (Option.some.inj h').symm⟩
  next h1 =>
    split at h'
    next h2 => exact Or.inr ⟨h2.1, h2.2, (Option.some.inj h').symm⟩
    next h2 => exact Option.noConfusion h'

/-- Inversion of the pixel-format selection on the component count. -/
theorem pixelFormatFor_inv (n p : Nat) (fmt : PixelFormat)
    (h : pixelFormatFor n p = some fmt) :
    n = 1 ∨ (n = 3 ∧ fmt = PixelFormat.RGB24) ∨
      (n = 4 ∧ fmt = PixelFormat.CMYK32) := by
  match n, h with
  | 1, h => exact Or.inl rfl
  | 3, h => exact Or.inr (Or.inl ⟨rfl, (Option.some.inj h).symm⟩)
  | 4, h => exact Or.inr (Or.inr ⟨rfl, (Option.some.inj h).symm⟩)
  | 0, h => exact Option.noConfusion h
  | 2, h => exact Option.noConfusion h
  | (m + 5), h => exact Option.noConfusion h

/-- Counterexample to C1 as stated: a 3-component 16-bit lossless frame
(supported input) decodes to two bytes per sample — 6 bytes for a 1×1
image — while the claimed formula `width * height * pixel_bytes(RGB24)`
gives 3. -/
theorem decode_length_claim_counterexample :
    pixelFormatFor 3 16 = some PixelFormat.RGB24 ∧
    compute_image_lossless ⟨16, ⟨1, 1⟩, 3⟩ [[1], [2], [3]] =
      some [1, 0, 2, 0, 3, 0] ∧
    ([1, 0, 2, 0, 3, 0] : List Nat).length ≠
      1 * 1 * PixelFormat.pixel_bytes PixelFormat.RGB24 := by
  refine ⟨rfl, rfl, by decide⟩

/-- **C1.** (corrected)  Output buffer lengths: the DCT path returns
`component.size.width * component.size.height` bytes for a single
component and `height * (width * ncomp)` bytes otherwise; the lossless
path additionally doubles every sample when the precision is not 8.
Consequently the claimed `width * height * pixel_bytes(format)` holds
for the DCT path (whose decodable frames all have precision 8) whenever
the single component's size equals the output size, and for the lossless
path exactly when the precision is 8 or the image has a single component
of precision at least 9 — the remaining lossless cases (multi-component
with precision ≠ 8, single-component with precision 2..=7) produce twice
as many bytes as a `pixel_bytes` byte count predicts. -/
theorem decode_buffer_length :
    (∀ comps data osize ct out,
      compute_image comps data osize ct = some out →
      out.length = if comps.length = 1
        then (comps.headD ⟨⟨0, 0⟩, ⟨0, 0⟩, 0, 1, 1⟩).size.width *
          (comps.headD ⟨⟨0, 0⟩, ⟨0, 0⟩, 0, 1, 1⟩).size.height
        else osize.height * (osize.width * comps.length)) ∧
    (∀ frame data out,
      compute_image_lossless frame data = some out →
      out.length = (if frame.precision = 8 then 1 else 2) *
        (if frame.components = 1 then (data.headD []).length
         else frame.output_size.width * frame.output_size.height *
           frame.components)) ∧
    (∀ comps data osize ct out fmt,
      compute_image comps data osize ct = some out →
      pixelFormatFor comps.length 8 = some fmt →
      (comps.headD ⟨⟨0, 0⟩, ⟨0, 0⟩, 0, 1, 1⟩).size = osize →
      out.length = osize.width * osize.height * fmt.pixel_bytes) ∧
    (∀ frame data out fmt,
      compute_image_lossless frame data = some out →
      pixelFormatFor frame.components frame.precision = some fmt →
      (data.headD []).length =
        frame.output_size.width * frame.output_size.height →
      (frame.precision = 8 ∨
        (frame.components = 1 ∧ 9 ≤ frame.precision)) →
      out.length =
        frame.output_size.width * frame.output_size.height *
          fmt.pixel_bytes) := by
  refine ⟨fun comps data osize ct out h =>
      compute_image_length comps data osize ct out h,
    fun frame data out h =>
      compute_image_lossless_length frame data out h,
    fun comps data osize ct out fmt h hfmt hsize => ?_,
    fun frame data out fmt h hfmt hlen hyp => ?_⟩
  · have hr := compute_image_length comps data osize ct out h
    rcases pixelFormatFor_inv comps.length 8 fmt hfmt with h1 | h34
    · rw [h1] at hfmt
      rcases pixelFormatFor_one 8 fmt hfmt with ⟨_, _, hf⟩ | ⟨h9, _, _⟩
      · rw [if_pos h1] at hr
        rw [hr, hsize, hf]
        simp [PixelFormat.pixel_bytes]
      · omega
    · rcases h34 with ⟨h3, hf⟩ | ⟨h4, hf⟩
      · rw [if_neg (by omega)] at hr
        rw [hr, h3, hf]
        simp [PixelFormat.pixel_bytes]
        ring
      · rw [if_neg (by omega)] at hr
        rw [hr, h4, hf]
        simp [PixelFormat.pixel_bytes]
        ring
  · have hr := compute_image_lossless_length frame data out h
    rcases pixelFormatFor_inv frame.components frame.precision fmt hfmt
      with h1 | h34
    · rw [h1] at hfmt
      rw [if_pos h1, hlen] at hr
      rcases pixelFormatFor_one frame.precision fmt hfmt with
        ⟨hp2, hp8, hf⟩ | ⟨hp9, hp16, hf⟩
      · have hp : frame.precision = 8 := by
          rcases hyp with hp | ⟨_, hge⟩
          · exact hp
          · omega
        rw [if_pos hp] at hr
        rw [hr, hf]
        simp [PixelFormat.pixel_bytes]
      · rw [if_neg (by omega)] at hr
        rw [hr, hf]
        simp [PixelFormat.pixel_bytes]
        ring
    · have hp : frame.precision = 8 := by
        rcases hyp with hp | ⟨h1, _⟩
        · exact hp
        · rcases h34 with ⟨h3, _⟩ | ⟨h4, _⟩ <;> omega
      rcases h34 with ⟨h3, hf⟩ | ⟨h4, hf⟩
      · rw [if_pos hp, if_neg (by omega), h3] at hr
        rw [hr, hf]
        simp [PixelFormat.pixel_bytes]
      · rw [if_pos hp, if_neg (by omega), h4] at hr
        rw [hr, hf]
        simp [PixelFormat.pixel_bytes]

/-- Witness for `decode_buffer_length`: a 2×3 single-component DCT image
(6 bytes, format `L8`) and a 1×1 three-component 8-bit lossless image
(3 bytes, format `RGB24`). -/
theorem decode_buffer_length_witness :
    ([5, 0, 0, 0, 0, 0] : List Nat).length =
      2 * 3 * PixelFormat.pixel_bytes PixelFormat.L8 ∧
    ([1, 2, 3] : List Nat).length =
      1 * 1 * PixelFormat.pixel_bytes PixelFormat.RGB24 := by
  constructor
  · exact decode_buffer_length.2.2.1 [⟨⟨2, 3⟩, ⟨1, 1⟩, 2, 1, 1⟩] [[5]]
      ⟨2, 3⟩ ColorTransform.None [5, 0, 0, 0, 0, 0] PixelFormat.L8
      (by decide) (by decide) (by decide)
  · exact decode_buffer_length.2.2.2 ⟨8, ⟨1, 1⟩, 3⟩ [[1], [2], [3]]
      [1, 2, 3] PixelFormat.RGB24 (by decide) (by decide) (by decide)
      (Or.inl rfl)

end Jpeg
